import Mathlib

/-!
Verification of the network-shapley pipeline (Rust crate `network_shapley`).

The development shallowly embeds the crate rooted at `src/lib.rs` (modules
`types`, `error`, `validation`, `link_preparation`, `lp_construction`,
`coalition_computation`, `network_shapley`).  Conventions used throughout:

* `rust_decimal::Decimal` values are modelled as exact rationals `ℚ`.
* `f64` values are modelled by the type `F` below: finite doubles are kept as
  exact rationals (the pipeline's finite arithmetic is modelled exactly), and
  the IEEE-754 special values `+∞`, `-∞`, `NaN` are explicit constructors with
  the IEEE propagation rules for the operations the crate uses.
* The interior-point LP solver (the external `clarabel` crate) is a black box;
  it enters the embedding as an oracle parameter mapping the restricted
  problem (primitives plus row/column masks) to an optional objective value.
* `HashMap`/`HashSet` iteration order is unspecified in Rust; wherever the
  crate iterates such a container we fix first-insertion order.  No theorem
  below depends on that order (sets are consulted through membership, maps
  through lookup, and ordered data is sorted by the crate before use).
* Rust panics (out-of-bounds byte slicing of `&str`) are modelled by the
  `Outcome.panic` constructor.
-/

namespace NetworkShapley

/- Batteries marks the `Rat` arithmetic irreducible; closed-instance theorems
below evaluate the pipeline on concrete rationals, so reducibility is
restored for this file. -/
attribute [local semireducible] Rat.add Rat.mul Rat.sub Rat.inv Rat.ofScientific

/-! ## Decimal rounding and f64/Decimal conversions

The functions `round_decimal`, `f64_to_decimal` and `decimal_to_f64` are
re-exported by `src/lib.rs` from `types` but their bodies are not present in
the source tree; they are modelled from the spec, with behaviour pinned by the
unit tests in `src/types.rs` (`test_round_decimal`, `test_decimal_conversions`).
-/

/-- Round a rational to the nearest integer, ties to even (banker's rounding,
the default midpoint strategy of `rust_decimal::Decimal::round_dp`). -/
def roundHalfEven (q : ℚ) : ℤ :=
  let f := ⌊q⌋
  let r := q - (f : ℚ)
  if r < 1/2 then f
  else if 1/2 < r then f + 1
  else if f % 2 = 0 then f else f + 1

/-- Modelled from the spec: `round_decimal` ("Round all reported values to 4
decimal places") rounds a decimal to 4 decimal places; midpoints go to even
(`rust_decimal` `round_dp` default), pinned by `test_round_decimal` in
`src/types.rs`. -/
def round_decimal (q : ℚ) : ℚ := (roundHalfEven (q * 10000) : ℚ) / 10000

/-- Model of an IEEE-754 double (`f64`): finite values are exact rationals,
and the special values are explicit.  Signed zero is not distinguished (no
operation used by the crate observes the sign of zero for the inputs reached
here). -/
inductive F where
  | fin (q : ℚ)
  | pinf
  | ninf
  | nan
  deriving DecidableEq

namespace F

/-- IEEE-754 addition on the `f64` model. -/
def add : F → F → F
  | nan, _ => nan
  | _, nan => nan
  | pinf, ninf => nan
  | ninf, pinf => nan
  | pinf, _ => pinf
  | _, pinf => pinf
  | ninf, _ => ninf
  | _, ninf => ninf
  | fin a, fin b => fin (a + b)

/-- IEEE-754 negation on the `f64` model. -/
def neg : F → F
  | nan => nan
  | pinf => ninf
  | ninf => pinf
  | fin a => fin (-a)

/-- IEEE-754 subtraction (`x - y = x + (-y)` exactly in IEEE-754). -/
def sub (x y : F) : F := add x (neg y)

/-- IEEE-754 multiplication on the `f64` model (`0 × ∞ = NaN`). -/
def mul : F → F → F
  | nan, _ => nan
  | _, nan => nan
  | fin a, fin b => fin (a * b)
  | fin a, pinf => if a = 0 then nan else if 0 < a then pinf else ninf
  | pinf, fin a => if a = 0 then nan else if 0 < a then pinf else ninf
  | fin a, ninf => if a = 0 then nan else if 0 < a then ninf else pinf
  | ninf, fin a => if a = 0 then nan else if 0 < a then ninf else pinf
  | pinf, pinf => pinf
  | ninf, ninf => pinf
  | pinf, ninf => ninf
  | ninf, pinf => ninf

/-- IEEE-754 division on the `f64` model (`∞/∞ = NaN`, `x/∞ = 0`,
`x/0 = ±∞` for `x ≠ 0`, `0/0 = NaN`; the model's single zero is treated as
`+0`). -/
def div : F → F → F
  | nan, _ => nan
  | _, nan => nan
  | fin a, fin b =>
      if b = 0 then (if a = 0 then nan else if 0 < a then pinf else ninf)
      else fin (a / b)
  | fin _, pinf => fin 0
  | fin _, ninf => fin 0
  | pinf, fin b => if 0 ≤ b then pinf else ninf
  | ninf, fin b => if 0 ≤ b then ninf else pinf
  | pinf, pinf => nan
  | pinf, ninf => nan
  | ninf, pinf => nan
  | ninf, ninf => nan

/-- Rust `f64::max`: returns the other operand when one argument is NaN. -/
def maxRust : F → F → F
  | nan, y => y
  | x, nan => x
  | pinf, _ => pinf
  | _, pinf => pinf
  | ninf, y => y
  | x, ninf => x
  | fin a, fin b => fin (max a b)

/-- IEEE-754 `>` comparison (false whenever an operand is NaN). -/
def gt : F → F → Bool
  | nan, _ => false
  | _, nan => false
  | pinf, pinf => false
  | pinf, _ => true
  | _, pinf => false
  | ninf, _ => false
  | fin _, ninf => true
  | fin a, fin b => decide (b < a)

/-- IEEE-754 `==` comparison (false whenever an operand is NaN). -/
def beq : F → F → Bool
  | fin a, fin b => decide (a = b)
  | pinf, pinf => true
  | ninf, ninf => true
  | _, _ => false

/-- Whether the modelled double is a finite value. -/
def isFinite : F → Bool
  | fin _ => true
  | _ => false

end F

/-- Left fold of IEEE addition starting from `0.0`, the accumulation pattern
used by the crate for dot products and running sums. -/
def Fsum (l : List F) : F := l.foldl F.add (F.fin 0)

/-- Modelled from the spec: `f64_to_decimal` crosses the `f64 → decimal`
boundary ("f64 → decimal, round to 4 dp on outputs"); finite values convert
exactly (pinned by `test_decimal_conversions` in `src/types.rs`), and the
non-finite values NaN and ±∞, which `Decimal` cannot represent, convert to 0
(spec §7: an all-`−∞` aggregator input "will produce all-zero Shapley
values"). -/
def f64_to_decimal : F → ℚ
  | F.fin q => q
  | _ => 0

/-- Modelled from the spec: `decimal_to_f64` crosses the `decimal → f64`
boundary; decimals are finite, and finite doubles are modelled exactly. -/
def decimal_to_f64 (q : ℚ) : F := F.fin q

/-! ## Data model (`src/types.rs`) -/

/-- `types::Link` — a directed edge between two switch labels. -/
structure Link where
  start : String
  «end» : String
  cost : ℚ
  bandwidth : ℚ
  operator1 : String
  operator2 : String
  uptime : ℚ
  shared : ℕ
  link_type : ℕ
  deriving DecidableEq

instance : Inhabited Link := ⟨⟨"", "", 0, 0, "0", "0", 1, 0, 0⟩⟩

/-- `types::Demand` — a traffic requirement between two city labels. -/
structure Demand where
  start : String
  «end» : String
  traffic : ℚ
  demand_type : ℕ
  deriving DecidableEq

/-- `types::ShapleyValue` — the per-operator result (value and percent are
`Decimal`, modelled as `ℚ`). -/
structure ShapleyValue where
  operator : String
  value : ℚ
  percent : ℚ
  deriving DecidableEq

/-- `error::ShapleyError` — the error variants reachable from the embedded
pipeline. -/
inductive ShapleyError where
  | emptyLinks (link_type : String)
  | invalidSwitchNaming (link_type : String)
  | invalidEndpointNaming
  | multipleTrafficSources
  | incompletePublicPathway (location : String) (missing : List String)
  | reservedOperatorName
  | tooManyOperators
  | computationError (msg : String)
  deriving DecidableEq

/-- Result of running a pipeline stage: a value, a typed error
(`Result<T, ShapleyError>` in Rust), or a Rust panic. -/
inductive Outcome (α : Type) where
  | ok (val : α)
  | err (e : ShapleyError)
  | panic
  deriving DecidableEq

/-- Sequencing of pipeline stages (`?` in Rust); errors and panics
propagate. -/
def Outcome.bind {α β : Type} : Outcome α → (α → Outcome β) → Outcome β
  | ok a, f => f a
  | err e, _ => err e
  | panic, _ => panic

/-! ## String utilities -/

/-- `validation::has_digit` / `utils::has_digit`: whether the string contains
an ASCII digit (`char::is_ascii_digit`). -/
def has_digit (s : String) : Bool := s.data.any (fun c => c.isDigit)

/-- The UTF-8 byte length of a string (`str::len` in Rust counts bytes). -/
def utf8Len (s : String) : ℕ := s.data.foldl (fun a c => a + c.utf8Size) 0

/-- Model of the Rust byte slice `&s[..budget]` on the character list of a
UTF-8 string: `some` of the character prefix when `budget` lands on a
character boundary, `none` when the slice panics (byte index inside a
multi-byte character, or past the end of the string). -/
def takeBytes : List Char → ℕ → Option (List Char)
  | _, 0 => some []
  | [], _ + 1 => none
  | c :: cs, b + 1 =>
      if c.utf8Size ≤ b + 1 then (takeBytes cs (b + 1 - c.utf8Size)).map (fun l => c :: l)
      else none

/-- Model of `&s[..3]`, the crate's "city of a switch" extraction; `none`
models the Rust panic on a non-boundary byte index. -/
def city3 (s : String) : Option String :=
  (takeBytes s.data 3).map (fun l => String.mk l)

/-! ## Ordered-list utilities

These model `sort` on vectors collected from hash containers (result: sorted,
duplicate-free) and keep-first-occurrence deduplication for hash sets that the
crate only consults through membership.
-/

/-- Insert a natural number into a sorted duplicate-free list. -/
def insertSortedNat (x : ℕ) : List ℕ → List ℕ
  | [] => [x]
  | y :: ys =>
      if x < y then x :: y :: ys
      else if x = y then y :: ys
      else y :: insertSortedNat x ys

/-- The sorted list of distinct elements of `l` (models collecting a
`HashSet<usize>` into a vector and sorting it). -/
def sortedDedupNat (l : List ℕ) : List ℕ := l.foldr insertSortedNat []

/-- Lexicographic comparison of character lists by code point (agrees with
the byte-wise UTF-8 order `Vec<String>::sort` uses, since UTF-8 preserves
code-point order). -/
def charsLt : List Char → List Char → Bool
  | [], [] => false
  | [], _ :: _ => true
  | _ :: _, [] => false
  | a :: as, b :: bs =>
      if a.toNat < b.toNat then true
      else if b.toNat < a.toNat then false
      else charsLt as bs

/-- String comparison used for sorting operator labels. -/
def strLt (a b : String) : Bool := charsLt a.data b.data

/-- Insert a string into a sorted duplicate-free list (lexicographic byte
order, as `Vec<String>::sort`). -/
def insertSortedStr (x : String) : List String → List String
  | [] => [x]
  | y :: ys =>
      if strLt x y then x :: y :: ys
      else if x = y then y :: ys
      else y :: insertSortedStr x ys

/-- The sorted list of distinct strings of `l`. -/
def sortedDedupStr (l : List String) : List String := l.foldr insertSortedStr []

/-- Keep-first-occurrence deduplication (models `HashSet` insertion; consumers
below only test membership, so the fixed order is immaterial). -/
def dedupFirst (l : List String) : List String :=
  l.foldl (fun acc x => if x ∈ acc then acc else acc ++ [x]) []

/-! ## Link preparation (`src/link_preparation.rs`) -/

/-- The operator2-filling pass of `prepare_private_links`: a missing or
public secondary operator is replaced by the primary. -/
def fill_operator2 (l : Link) : Link :=
  if l.operator2 = "0" ∨ l.operator2 = "" then { l with operator2 := l.operator1 } else l

/-- `links.iter().filter_map(positive shared).max().unwrap_or(0)`: the largest
shared id (0 when none is positive). -/
def max_shared_of (links : List Link) : ℕ :=
  links.foldl (fun m l => max m l.shared) 0

/-- The duplication pass of `prepare_private_links`: each link yields a
forward copy (bandwidth derated by uptime, `link_type = 0`) followed by a
reverse copy (endpoints swapped, positive shared ids offset by `ms`). -/
def duplicate_links (ms : ℕ) (links : List Link) : List Link :=
  links.flatMap (fun l =>
    [{ l with bandwidth := l.bandwidth * l.uptime, link_type := 0 },
     { l with start := l.«end», «end» := l.start,
              bandwidth := l.bandwidth * l.uptime, link_type := 0,
              shared := if 0 < l.shared then l.shared + ms else l.shared }])

/-- First pass of `compact_shared_ids`: private links (operator ≠ "0") still
carrying `shared = 0` receive consecutive fresh ids starting from `next`. -/
def assign_fresh : List Link → ℕ → List Link
  | [], _ => []
  | l :: ls, next =>
      if l.shared = 0 ∧ l.operator1 ≠ "0" then
        { l with shared := next } :: assign_fresh ls (next + 1)
      else
        l :: assign_fresh ls next

/-- `link_preparation::compact_shared_ids`: assign fresh ids to unassigned
private links, then reindex all positive shared ids to consecutive
`1, 2, …, K` preserving their relative order (`mapping[old] = rank + 1` over
the sorted distinct ids). -/
def compact_shared_ids (links : List Link) : List Link :=
  let ms := max_shared_of links
  let assigned := assign_fresh links (ms + 1)
  let sorted_shared := sortedDedupNat ((assigned.map (fun l => l.shared)).filter (fun s => 0 < s))
  if sorted_shared.isEmpty then assigned
  else assigned.map (fun l =>
    if 0 < l.shared then { l with shared := sorted_shared.indexOf l.shared + 1 } else l)

/-- `link_preparation::prepare_private_links`: fill secondary operators,
duplicate for bidirectionality (reverse shared ids offset by the pre-duplication
maximum), then compact shared ids. -/
def prepare_private_links (links : List Link) : List Link :=
  let filled := links.map fill_operator2
  let ms := max_shared_of filled
  compact_shared_ids (duplicate_links ms filled)

/-- `link_preparation::prepare_public_links`: forward and reverse copies with
`link_type = 0`, no other transformation. -/
def prepare_public_links (links : List Link) : List Link :=
  links.flatMap (fun l =>
    [{ l with link_type := 0 },
     { l with start := l.«end», «end» := l.start, link_type := 0 }])

/-- `link_preparation::merge_link_components`: private links first, then the
public links with the hybrid penalty added to their cost, then the helper
links without the penalty; public and helper links are cleared to
`bandwidth 0`, operators `"0"`, `uptime 1`, `shared 0`.  The Rust function
returns `Result` but never errors. -/
def merge_link_components (private_links public_links helper_links : List Link)
    (hybrid_penalty : ℚ) : List Link :=
  private_links ++
  public_links.map (fun l =>
    { l with cost := l.cost + hybrid_penalty, bandwidth := 0,
             operator1 := "0", operator2 := "0", uptime := 1, shared := 0 }) ++
  helper_links.map (fun l =>
    { l with bandwidth := 0,
             operator1 := "0", operator2 := "0", uptime := 1, shared := 0 })

/-- A helper link as produced by `LinkBuilder::default()` with only `start`,
`end`, `cost` and `link_type` set (defaults: bandwidth 0, operators "0",
uptime 1, shared 0). -/
def mkHelperLink (s e : String) (cost : ℚ) (t : ℕ) : Link :=
  ⟨s, e, cost, 0, "0", "0", 1, 0, t⟩

/-- Update-or-append into an association list keyed by a city pair, taking the
minimum cost (`HashMap::entry(..).and_modify(min).or_insert`). -/
def updMin (m : List ((String × String) × ℚ)) (k : String × String) (c : ℚ) :
    List ((String × String) × ℚ) :=
  if m.any (fun e => e.1 = k) then
    m.map (fun e => if e.1 = k then (e.1, min e.2 c) else e)
  else m ++ [(k, c)]

/-- `link_preparation::find_direct_paths`: for public links whose endpoints
both have byte length ≥ 3, slice out the 3-byte city codes (a Rust panic on a
non-boundary index is `Outcome.panic`), keep the links from `src_city` to a
destination city, fold the minimum cost per city pair, and emit one direct
link per pair (`HashMap` iteration fixed to first-insertion order). -/
def find_direct_paths (public_links : List Link) (src_city : String)
    (dst_cities : List String) (traffic_type : ℕ) : Outcome (List Link) :=
  if public_links.any (fun l =>
      3 ≤ utf8Len l.start ∧ 3 ≤ utf8Len l.«end» ∧
      ((city3 l.start).isNone ∨ (city3 l.«end»).isNone)) then
    Outcome.panic
  else
    let city_paths := public_links.foldl (fun m l =>
      if 3 ≤ utf8Len l.start ∧ 3 ≤ utf8Len l.«end» then
        match city3 l.start, city3 l.«end» with
        | some sc, some ec =>
            if sc = src_city ∧ ec ∈ dst_cities then updMin m (sc, ec) l.cost else m
        | _, _ => m
      else m) []
    Outcome.ok (city_paths.map (fun e => mkHelperLink e.1.1 e.1.2 e.2 traffic_type))

/-- `link_preparation::create_source_helpers`: a zero-cost link from the
source city to every public-link start switch whose city code equals it
(`HashSet` of switches fixed to first-insertion order). -/
def create_source_helpers (public_links : List Link) (src_city : String)
    (traffic_type : ℕ) : Outcome (List Link) :=
  if public_links.any (fun l => 3 ≤ utf8Len l.start ∧ (city3 l.start).isNone) then
    Outcome.panic
  else
    let src_switches := dedupFirst (public_links.filterMap (fun l =>
      if 3 ≤ utf8Len l.start then
        match city3 l.start with
        | some c => if c = src_city then some l.start else none
        | none => none
      else none))
    Outcome.ok (src_switches.map (fun sw => mkHelperLink src_city sw 0 traffic_type))

/-- `link_preparation::create_destination_helpers`: a zero-cost link from
every public-link end switch whose city code is a destination city to that
city (the second slice `&switch[..3]` re-slices a switch that already sliced
successfully). -/
def create_destination_helpers (public_links : List Link)
    (dst_cities : List String) (traffic_type : ℕ) : Outcome (List Link) :=
  if public_links.any (fun l => 3 ≤ utf8Len l.«end» ∧ (city3 l.«end»).isNone) then
    Outcome.panic
  else
    let dst_switches := dedupFirst (public_links.filterMap (fun l =>
      if 3 ≤ utf8Len l.«end» then
        match city3 l.«end» with
        | some c => if c ∈ dst_cities then some l.«end» else none
        | none => none
      else none))
    Outcome.ok (dst_switches.filterMap (fun sw =>
      (city3 sw).map (fun city => mkHelperLink sw city 0 traffic_type)))

/-- `types::DemandMatrix::unique_types`: the sorted distinct demand types. -/
def unique_types (demands : List Demand) : List ℕ :=
  sortedDedupNat (demands.map (fun d => d.demand_type))

/-- `link_preparation::generate_helper_links`: per traffic type, the direct
city-to-city links followed by the source on-ramps and destination off-ramps.
The Rust code runs the types in a parallel pool and concatenates in type
order; errors of the three builders are discarded (`if let Ok`), but they
never error — only panics propagate. -/
def generate_helper_links (public_links : List Link) (demands : List Demand) :
    Outcome (List Link) :=
  (unique_types demands).foldl (fun acc t =>
    Outcome.bind acc (fun done =>
      let type_demands := demands.filter (fun d => d.demand_type = t)
      match type_demands with
      | [] => Outcome.ok done
      | d0 :: _ =>
        let src_city := d0.start
        let dst_cities := dedupFirst (type_demands.map (fun d => d.«end»))
        Outcome.bind (find_direct_paths public_links src_city dst_cities t) (fun direct =>
        Outcome.bind (create_source_helpers public_links src_city t) (fun srcs =>
        Outcome.bind (create_destination_helpers public_links dst_cities t) (fun dsts =>
        Outcome.ok (done ++ direct ++ srcs ++ dsts))))))
    (Outcome.ok [])

/-! ## Validation (`src/validation.rs`) -/

/-- `validation::validate_private_links`: the private link list must be
non-empty. -/
def validate_private_links (links : List Link) : Outcome Unit :=
  if links.isEmpty then Outcome.err (ShapleyError.emptyLinks "private") else Outcome.ok ()

/-- `validation::validate_public_links`: the public link list must be
non-empty. -/
def validate_public_links (links : List Link) : Outcome Unit :=
  if links.isEmpty then Outcome.err (ShapleyError.emptyLinks "public") else Outcome.ok ()

/-- `validation::validate_switch_naming`: every switch label must contain a
digit. -/
def validate_switch_naming (links : List Link) (link_type : String) : Outcome Unit :=
  if links.any (fun l => !has_digit l.start || !has_digit l.«end») then
    Outcome.err (ShapleyError.invalidSwitchNaming link_type)
  else Outcome.ok ()

/-- `validation::validate_endpoint_naming`: demand endpoints must not contain
digits. -/
def validate_endpoint_naming (demands : List Demand) : Outcome Unit :=
  if demands.any (fun d => has_digit d.start || has_digit d.«end») then
    Outcome.err ShapleyError.invalidEndpointNaming
  else Outcome.ok ()

/-- `validation::validate_traffic_types`: a single source city per demand
type (the Rust code groups sources per type in a hash map and rejects any
type with more than one distinct source). -/
def validate_traffic_types (demands : List Demand) : Outcome Unit :=
  if demands.any (fun d => demands.any (fun d' =>
      d.demand_type = d'.demand_type ∧ d.start ≠ d'.start)) then
    Outcome.err ShapleyError.multipleTrafficSources
  else Outcome.ok ()

/-- `validation::validate_public_pathway_coverage`: every private switch must
appear among the public switches, and every demand city must be the 3-byte
city code of some public switch.  The city-code loop slices `&switch[..3]`
for switches of byte length ≥ 3, which panics on a non-boundary index
(`HashSet` orders fixed to first-insertion; only the error payload order
depends on it). -/
def validate_public_pathway_coverage (private_links public_links : List Link)
    (demands : List Demand) : Outcome Unit :=
  let private_switches :=
    dedupFirst (private_links.flatMap (fun l => [l.start, l.«end»]))
  let public_switches :=
    dedupFirst (public_links.flatMap (fun l => [l.start, l.«end»]))
  let missing_switches := private_switches.filter (fun s => s ∉ public_switches)
  if ¬ missing_switches.isEmpty then
    Outcome.err (ShapleyError.incompletePublicPathway "all the switches" missing_switches)
  else if public_switches.any (fun sw => 3 ≤ utf8Len sw ∧ (city3 sw).isNone) then
    Outcome.panic
  else
    let public_cities := dedupFirst ((public_switches.filter (fun sw => 3 ≤ utf8Len sw)).filterMap city3)
    let demand_cities := dedupFirst (demands.flatMap (fun d => [d.start, d.«end»]))
    let missing_cities := demand_cities.filter (fun c => c ∉ public_cities)
    if ¬ missing_cities.isEmpty then
      Outcome.err (ShapleyError.incompletePublicPathway "the demand points" missing_cities)
    else Outcome.ok ()

/-- `validation::validate_operator_names`: the literal "0" is reserved, and at
most 15 distinct operators are allowed. -/
def validate_operator_names (operators : List String) : Outcome Unit :=
  if operators.any (fun op => op = "0") then
    Outcome.err ShapleyError.reservedOperatorName
  else if 15 < (dedupFirst operators).length then
    Outcome.err ShapleyError.tooManyOperators
  else Outcome.ok ()

/-- `network_shapley::consolidate_map`: validate the inputs, prepare private
and public links, validate public pathway coverage, generate helper links,
and merge. -/
def consolidate_map (private_links public_links : List Link)
    (demands : List Demand) (hybrid_penalty : ℚ) : Outcome (List Link) :=
  Outcome.bind (validate_private_links private_links) (fun _ =>
  Outcome.bind (validate_public_links public_links) (fun _ =>
  Outcome.bind (validate_switch_naming private_links "private") (fun _ =>
  Outcome.bind (validate_switch_naming public_links "public") (fun _ =>
  Outcome.bind (validate_endpoint_naming demands) (fun _ =>
  Outcome.bind (validate_traffic_types demands) (fun _ =>
  let private_df := prepare_private_links private_links
  let public_df := prepare_public_links public_links
  Outcome.bind (validate_public_pathway_coverage private_df public_df demands) (fun _ =>
  Outcome.bind (generate_helper_links public_df demands) (fun helper_df =>
  Outcome.ok (merge_link_components private_df public_df helper_df hybrid_penalty)))))))))

/-! ## LP construction (`src/lp_construction.rs`)

The sparse constraint matrices `A_eq`, `A_ub` and the demand vector `b_eq`
are consumed only by the black-box interior-point solver and are therefore
not materialised in the embedding; the solver enters as an oracle over the
primitives and the per-coalition masks.  The data the coalition layer
inspects directly — the bandwidth bounds `b_ub`, the objective costs, and the
row/column operator tags — is embedded faithfully.
-/

/-- Update-or-replace into an association list keyed by `ℕ`
(`HashMap::insert`: a later insert for the same key overwrites). -/
def insertA {α : Type} (m : List (ℕ × α)) (k : ℕ) (v : α) : List (ℕ × α) :=
  if m.any (fun e => e.1 = k) then
    m.map (fun e => if e.1 = k then (k, v) else e)
  else m ++ [(k, v)]

/-- Lookup in an association list keyed by `ℕ`. -/
def lookupA {α : Type} (m : List (ℕ × α)) (k : ℕ) : Option α :=
  (m.find? (fun e => e.1 = k)).map (fun e => e.2)

/-- `lp_construction::get_valid_columns`: a variable `(link j, commodity k)`
is kept iff the link's type is 0 or equals the commodity. -/
def get_valid_columns (link_map : List Link) (commodities : List ℕ) : List ℕ :=
  let n_links := link_map.length
  (commodities.enum.flatMap (fun kt =>
    link_map.enum.filterMap (fun jl =>
      if jl.2.link_type = kt.2 ∨ jl.2.link_type = 0 then some (jl.1 + kt.1 * n_links)
      else none)))

/-- `lp_construction::build_bandwidth_constraints`, bandwidth vector only:
`shared_bandwidth` is a `HashMap` filled by iterating the private prefix
(`insert` overwrites, so the last link of each shared id wins), and
`b_ub[s-1]` reads id `s` for `s = 1, …, max_shared` (0 when absent). -/
def build_bandwidth_constraints (link_map : List Link) (n_private : ℕ) : List ℚ :=
  let shared_ids := (link_map.take n_private).map (fun l => l.shared)
  if shared_ids.isEmpty then []
  else
    let max_shared := shared_ids.foldl max 0
    let shared_bandwidth := (link_map.take n_private).foldl
      (fun m l => insertA m l.shared l.bandwidth) []
    (List.range max_shared).map (fun i => (lookupA shared_bandwidth (i + 1)).getD 0)

/-- The row and column operator tags of `LPPrimitives`, plus the data the
embedding carries for the solver oracle. -/
structure LPPrimitives where
  b_ub : List ℚ
  cost : List ℚ
  row_index1 : List String
  row_index2 : List String
  col_index1 : List String
  col_index2 : List String
  deriving DecidableEq

/-- `lp_construction::extract_operator_indices`: the per-row tags come from a
`HashMap` over the private prefix keyed by shared id (last occurrence wins),
with rows ordered by the sorted distinct shared ids; the per-column tags are
the link operators tiled per commodity and trimmed by `keep`. -/
def extract_operator_indices (link_map : List Link) (n_private : ℕ)
    (commodities : List ℕ) (keep : List ℕ) :
    List String × List String × List String × List String :=
  let shared_operators := (link_map.take n_private).foldl
    (fun m l => insertA m l.shared (l.operator1, l.operator2)) []
  let sorted_shared := sortedDedupNat (shared_operators.map (fun e => e.1))
  let row_index1 := sorted_shared.map (fun s => ((lookupA shared_operators s).getD ("", "")).1)
  let row_index2 := sorted_shared.map (fun s => ((lookupA shared_operators s).getD ("", "")).2)
  let all_op1 := commodities.flatMap (fun _ => link_map.map (fun l => l.operator1))
  let all_op2 := commodities.flatMap (fun _ => link_map.map (fun l => l.operator2))
  let col_index1 := keep.map (fun i => all_op1.getD i "")
  let col_index2 := keep.map (fun i => all_op2.getD i "")
  (row_index1, row_index2, col_index1, col_index2)

/-- `lp_construction::build_objective_coefficients`: link costs tiled per
commodity and trimmed by `keep`. -/
def build_objective_coefficients (link_map : List Link) (commodities : List ℕ)
    (keep : List ℕ) : List ℚ :=
  let all_costs := commodities.flatMap (fun _ => link_map.map (fun l => l.cost))
  keep.map (fun i => all_costs.getD i 0)

/-- `network_shapley::lp_primitives`: scale demand, count private links, and
assemble the primitives (flow matrices omitted; see the section comment). -/
def lp_primitives (link_map : List Link) (demands : List Demand)
    (demand_multiplier : ℚ) : LPPrimitives :=
  let scaled := demands.map (fun d => { d with traffic := d.traffic * demand_multiplier })
  let n_private := (link_map.filter (fun l => l.operator1 ≠ "0")).length
  let commodities := unique_types scaled
  let keep := get_valid_columns link_map commodities
  let b_ub := build_bandwidth_constraints link_map n_private
  let ops := extract_operator_indices link_map n_private commodities keep
  let cost := build_objective_coefficients link_map commodities keep
  ⟨b_ub, cost, ops.1, ops.2.1, ops.2.2.1, ops.2.2.2⟩

/-! ## Coalition computation (`src/coalition_computation.rs`) -/

/-- `coalition_computation::enumerate_operators`: the sorted distinct
operators of the private links, excluding "0". -/
def enumerate_operators (private_links : List Link) : List String :=
  sortedDedupStr (private_links.foldl (fun acc l =>
    (acc ++ (if l.operator1 ≠ "0" then [l.operator1] else [])) ++
    (if l.operator2 ≠ "0" then [l.operator2] else [])) [])

/-- `generate_coalition_bitmap` entry: `bitmap[(row, col)] = (col >> row) & 1`. -/
def bitmap_bit (row col : ℕ) : Bool := (col >>> row) &&& 1 = 1

/-- `coalition_computation::get_coalition_subset`: the operators whose bit is
set in the coalition index. -/
def get_coalition_subset (operators : List String) (idx : ℕ) : List String :=
  operators.enum.filterMap (fun p => if bitmap_bit p.1 idx then some p.2 else none)

/-- `coalition_computation::get_coalition_masks`: a row/column survives iff
both of its operator tags are in the coalition or are "0". -/
def get_coalition_masks (subset : List String) (p : LPPrimitives) :
    List Bool × List Bool :=
  let valid := "0" :: subset
  ((p.row_index1.zip p.row_index2).map (fun ab => decide (ab.1 ∈ valid ∧ ab.2 ∈ valid)),
   (p.col_index1.zip p.col_index2).map (fun ab => decide (ab.1 ∈ valid ∧ ab.2 ∈ valid)))

/-- The black-box LP solve: given the primitives and the row/column masks of
a coalition, `clarabel` either returns the (negated) optimal objective or
fails (infeasible / iteration cap / construction error).  The embedding
abstracts it as an oracle parameter. -/
def LPOracle : Type := LPPrimitives → List Bool → List Bool → Option ℚ

/-- `coalition_computation::solve_single_coalition`: an empty selected-column
set short-circuits to `None`; otherwise the restricted LP is handed to the
solver. -/
def solve_single_coalition (oracle : LPOracle) (p : LPPrimitives)
    (row_mask col_mask : List Bool) : Option ℚ :=
  if col_mask.count true = 0 then none else oracle p row_mask col_mask

/-- `Vec::swap_remove`: remove index `i`, replacing it by the last element. -/
def swap_remove (l : List ℕ) (i : ℕ) : ℕ × List ℕ :=
  (l.getD i 0, (l.set i (l.getLast?.getD 0)).dropLast)

/-- The sampling loop of `solve_coalition_values_sampled`: `k` draws without
replacement from `pool` via `swap_remove`, driven by the abstract random
stream `rng` (`StdRng::seed_from_u64(42 + size)` is external to the crate;
draw `t` selects index `rng t % pool.len()`). -/
def sample_loop (rng : ℕ → ℕ) : ℕ → ℕ → List ℕ → List ℕ
  | _, 0, _ => []
  | t, k + 1, pool =>
      if pool.isEmpty then []
      else
        let i := rng t % pool.length
        let xr := swap_remove pool i
        xr.1 :: sample_loop rng (t + 1) k xr.2

/-- The coalition size as computed from the bitmap:
`(0..n_ops).filter(|i| bitmap[(i, idx)] == 1).count()`. -/
def csize (n_ops idx : ℕ) : ℕ :=
  ((List.range n_ops).filter (fun i => bitmap_bit i idx)).length

/-- The per-size sample budget of `solve_coalition_values_sampled`. -/
def samples_per_size (n_ops : ℕ) : ℕ :=
  if 10 ≤ n_ops ∧ n_ops ≤ 12 then 50
  else if 13 ≤ n_ops ∧ n_ops ≤ 15 then 30
  else 20

/-- Solve one coalition and convert to the stored value
(`unwrap_or(f64::NEG_INFINITY)`). -/
def coalition_value (oracle : LPOracle) (operators : List String)
    (p : LPPrimitives) (idx : ℕ) : F :=
  let subset := get_coalition_subset operators idx
  let masks := get_coalition_masks subset p
  match solve_single_coalition oracle p masks.1 masks.2 with
  | some v => F.fin v
  | none => F.ninf

/-- `coalition_computation::solve_coalition_values_sampled` (10+ operators):
coalition 0 is set to 0 and the grand coalition is solved; each intermediate
size is sampled without replacement up to the per-size budget; unsampled
coalitions receive the average of the solved values of the same size. -/
def solve_coalition_values_sampled (oracle : LPOracle) (rng : ℕ → ℕ → ℕ)
    (operators : List String) (p : LPPrimitives) : List F × List ℕ :=
  let n_ops := operators.length
  let n_coal := 2 ^ n_ops
  let sv0 := ((List.replicate n_coal F.ninf).set 0 (F.fin 0))
  let sz0 := (List.replicate n_coal 0)
  let full_idx := n_coal - 1
  let full_masks := get_coalition_masks operators p
  let full_val :=
    match solve_single_coalition oracle p full_masks.1 full_masks.2 with
    | some v => F.fin v
    | none => F.ninf
  let sv1 := sv0.set full_idx full_val
  let sz1 := sz0.set full_idx n_ops
  let pool := fun k => (List.range n_coal).filter (fun idx => csize n_ops idx = k)
  let sampled := (List.range' 1 (n_ops - 1)).flatMap (fun k =>
    let pk := pool k
    let n_samples := min (samples_per_size n_ops) pk.length
    (sample_loop (rng k) 0 n_samples pk).map (fun idx =>
      (idx, coalition_value oracle operators p idx, k)))
  let sv2 := sampled.foldl (fun sv r => sv.set r.1 r.2.1) sv1
  let sz2 := sampled.foldl (fun sz r => sz.set r.1 r.2.2) sz1
  (List.range' 1 (n_ops - 1)).foldl (fun svsz k =>
    let pk := pool k
    let known := pk.filterMap (fun idx =>
      if F.gt (svsz.1.getD idx F.nan) F.ninf then some (svsz.1.getD idx F.nan) else none)
    if known.isEmpty then svsz
    else
      let avg := F.div (Fsum known) (F.fin (known.length : ℚ))
      pk.foldl (fun svsz' idx =>
        if F.beq (svsz'.1.getD idx F.nan) F.ninf then
          (svsz'.1.set idx avg, svsz'.2.set idx k)
        else svsz') svsz) (sv2, sz2)

/-- `coalition_computation::solve_coalition_values`: the sampled path for 10+
operators, otherwise every coalition is solved (the crate's parallel and
sequential branches compute the same per-index values). -/
def solve_coalition_values (oracle : LPOracle) (rng : ℕ → ℕ → ℕ)
    (operators : List String) (p : LPPrimitives) : List F × List ℕ :=
  let n_coal := 2 ^ operators.length
  if 10 ≤ operators.length then
    solve_coalition_values_sampled oracle rng operators p
  else
    ((List.range n_coal).map (coalition_value oracle operators p),
     (List.range n_coal).map (fun idx => (get_coalition_subset operators idx).length))

/-! ## Uptime reweighting (`compute_expected_values`)

The probability matrices (`submask`, the recursive `coef` matrix, `base_p`,
`bp_masked`, `term`, `part`) are built from the bitmap, the uptime and the
coalition sizes only — all finite doubles — and their arithmetic is modelled
exactly over `ℚ`; the possibly non-finite coalition values enter only in the
final matrix-vector product, which is carried out in the `f64` model `F`.
-/

/-- `coalition_computation::build_submask`: `submask[(i, j)] = 1` iff `j ≤ i`
(lower triangle) and `(j & i) == j` (coalition `j` is a subset of `i`). -/
def submaskQ (i j : ℕ) : ℚ :=
  if j ≤ i then (if j &&& i = j then 1 else 0) else 0

/-- `coalition_computation::build_coefficient_matrix` as an entry function:
starting from the 1×1 zero matrix, each operator doubles the matrix to
`[[coef, 0], [-coef - I, coef]]`. -/
def coefQ : ℕ → ℕ → ℕ → ℚ
  | 0, _, _ => 0
  | n + 1, i, j =>
      if i < 2 ^ n then
        (if j < 2 ^ n then coefQ n i j else 0)
      else
        if j < 2 ^ n then
          -coefQ n (i - 2 ^ n) j - (if i - 2 ^ n = j then 1 else 0)
        else coefQ n (i - 2 ^ n) (j - 2 ^ n)

/-- `base_p[j] = operator_uptime.powi(size[j])`. -/
def base_pQ (u : ℚ) (size : List ℕ) (j : ℕ) : ℚ := u ^ (size.getD j 0)

/-- `bp_masked[(i, j)] = base_p[j] * submask[(i, j)]`. -/
def bpQ (u : ℚ) (size : List ℕ) (i j : ℕ) : ℚ := base_pQ u size j * submaskQ i j

/-- `term = bp_masked * (coef .* submask)` (matrix product over the
`n_coal`-sized index range). -/
def termQ (n_coal n_ops : ℕ) (u : ℚ) (size : List ℕ) (i j : ℕ) : ℚ :=
  ((List.range n_coal).map (fun k => bpQ u size i k * (coefQ n_ops k j * submaskQ k j))).sum

/-- `part = (bp_masked + term) .* submask`. -/
def partQ (n_coal n_ops : ℕ) (u : ℚ) (size : List ℕ) (i j : ℕ) : ℚ :=
  (bpQ u size i j + termQ n_coal n_ops u size i j) * submaskQ i j

/-- `coalition_computation::compute_expected_values`:
`evalue = part * svalue` in `f64` arithmetic, with the override
`evalue[0] = svalue[0]`. -/
def compute_expected_values (svalue : List F) (size : List ℕ) (u : ℚ)
    (n_ops : ℕ) : List F :=
  let n_coal := svalue.length
  let evalue := (List.range n_coal).map (fun i =>
    Fsum ((List.range n_coal).map (fun j =>
      F.mul (F.fin (partQ n_coal n_ops u size i j)) (svalue.getD j F.nan))))
  if 0 < n_coal then evalue.set 0 (svalue.getD 0 F.nan) else evalue

/-! ## Shapley aggregation (`calculate_shapley_values`) -/

/-- `coalition_computation::factorial` (exact for the sizes reached here;
the crate's `usize` product does not overflow for `n ≤ 15`). -/
def factorial : ℕ → ℕ
  | 0 => 1
  | n + 1 => (n + 1) * factorial n

/-- The coalitions containing operator `k` (`with_op`). -/
def with_op (n_ops k : ℕ) : List ℕ :=
  (List.range (2 ^ n_ops)).filter (fun i => bitmap_bit k i)

/-- The Shapley weight `(s-1)! (n-s)! / n!` read off the size vector.  The
crate computes it as `factorials[size[i] - 1] * factorials[n - size[i]] /
fact_n` in `usize` arithmetic: for `size[i] = 0` the subtraction overflows
(debug panic) or wraps into an out-of-bounds `Vec` index (release panic).
That panic is modelled by the guard in `calculate_shapley_values`; this
total function is consulted only on the non-panicking branch, where every
`with_op` coalition has positive recorded size and the truncated `ℕ`
subtraction agrees with the `usize` one. -/
def shapley_weight (n_ops : ℕ) (size : List ℕ) (i : ℕ) : ℚ :=
  ((factorial (size.getD i 0 - 1) : ℚ) * (factorial (n_ops - size.getD i 0) : ℚ)) /
    (factorial n_ops : ℚ)

/-- The accumulated Shapley contribution of operator `k`:
`Σ w(i) * (evalue[i] - evalue[i - 2^k])` over coalitions containing `k`,
in `f64` arithmetic starting from `0.0`. -/
def shapleyF (evalue : List F) (size : List ℕ) (n_ops k : ℕ) : F :=
  Fsum ((with_op n_ops k).map (fun i =>
    F.mul (F.fin (shapley_weight n_ops size i))
      (F.sub (evalue.getD i F.nan) (evalue.getD (i - 2 ^ k) F.nan))))

/-- `percent[k] = shapley[k].max(0.0)` (Rust `f64::max`). -/
def clipF (evalue : List F) (size : List ℕ) (n_ops k : ℕ) : F :=
  F.maxRust (shapleyF evalue size n_ops k) (F.fin 0)

/-- `total = percent.sum()`. -/
def totalClipF (evalue : List F) (size : List ℕ) (n_ops : ℕ) : F :=
  Fsum ((List.range n_ops).map (clipF evalue size n_ops))

/-- The normalised percentage: divided by the total only when
`total > 0.0`. -/
def percentF (evalue : List F) (size : List ℕ) (n_ops k : ℕ) : F :=
  if F.gt (totalClipF evalue size n_ops) (F.fin 0) then
    F.div (clipF evalue size n_ops k) (totalClipF evalue size n_ops)
  else clipF evalue size n_ops k

/-- `coalition_computation::calculate_shapley_values`: one `ShapleyValue` per
operator, the value and percent rounded to 4 decimal places after the
`f64 → Decimal` conversion.  The weight loop indexes
`factorials[size[i] - 1]`, so any coalition of recorded size 0 inside some
operator's `with_op` set makes the function panic (overflowing `usize`
subtraction in debug, wrapped out-of-bounds index in release) before any
output is produced; the guard models that panic. -/
def calculate_shapley_values (operators : List String) (evalue : List F)
    (size : List ℕ) (n_ops : ℕ) : Outcome (List ShapleyValue) :=
  if (List.range operators.length).any (fun k =>
      (with_op n_ops k).any (fun i => size.getD i 0 = 0)) then
    Outcome.panic
  else
    Outcome.ok (operators.enum.map (fun p =>
      ⟨p.2, round_decimal (f64_to_decimal (shapleyF evalue size n_ops p.1)),
        round_decimal (f64_to_decimal (percentF evalue size n_ops p.1))⟩))

/-- `network_shapley::network_shapley`: enumerate and validate operators,
consolidate the link map, build the LP primitives, solve all coalitions
(through the solver oracle and, for the sampled path, the abstract random
stream), reweight by uptime, and aggregate. -/
def network_shapley (oracle : LPOracle) (rng : ℕ → ℕ → ℕ)
    (private_links public_links : List Link) (demands : List Demand)
    (operator_uptime hybrid_penalty demand_multiplier : ℚ) :
    Outcome (List ShapleyValue) :=
  let operators := enumerate_operators private_links
  let n_ops := operators.length
  Outcome.bind (validate_operator_names operators) (fun _ =>
  Outcome.bind (consolidate_map private_links public_links demands hybrid_penalty)
    (fun full_map =>
  let p := lp_primitives full_map demands demand_multiplier
  let svsz := solve_coalition_values oracle rng operators p
  let evalue := compute_expected_values svsz.1 svsz.2 operator_uptime n_ops
  calculate_shapley_values operators evalue svsz.2 n_ops))

/-! ## Properties of the reweighting matrices

The inclusion-exclusion identity behind claim C5: at uptime 1 the `part`
matrix is the identity.  The proofs follow the block structure of the
recursive `coef` construction.
-/

theorem testBit_two_pow_add {n x : ℕ} (hx : x < 2 ^ n) (b : ℕ) :
    (2 ^ n + x).testBit b = (if b = n then true else x.testBit b) := by
  rcases lt_trichotomy b n with h | h | h
  · rw [Nat.testBit_two_pow_add_gt h, if_neg (Nat.ne_of_lt h)]
  · subst h
    rw [Nat.testBit_two_pow_add_eq, Nat.testBit_lt_two_pow hx, if_pos rfl, Bool.not_false]
  · have h1 : 2 ^ n + x < 2 ^ b := by
      calc 2 ^ n + x < 2 ^ n + 2 ^ n := by omega
      _ = 2 ^ (n + 1) := by ring
      _ ≤ 2 ^ b := Nat.pow_le_pow_right (by norm_num) h
    rw [Nat.testBit_lt_two_pow h1, Nat.testBit_lt_two_pow (lt_of_lt_of_le hx _),
      if_neg (Nat.ne_of_gt h)]
    exact Nat.pow_le_pow_right (by norm_num) (Nat.le_of_lt h)

theorem land_two_pow_add_right {n i j : ℕ} (hi : i < 2 ^ n) (hj : j < 2 ^ n) :
    j &&& (2 ^ n + i) = j &&& i := by
  apply Nat.eq_of_testBit_eq
  intro b
  rw [Nat.testBit_and, Nat.testBit_and, testBit_two_pow_add hi]
  by_cases hb : b = n
  · subst hb
    rw [Nat.testBit_lt_two_pow hj]
    simp
  · rw [if_neg hb]

theorem land_two_pow_add_both {n i j : ℕ} (hi : i < 2 ^ n) (hj : j < 2 ^ n) :
    (2 ^ n + j) &&& (2 ^ n + i) = 2 ^ n + (j &&& i) := by
  apply Nat.eq_of_testBit_eq
  intro b
  rw [Nat.testBit_and, testBit_two_pow_add hi, testBit_two_pow_add hj,
    testBit_two_pow_add (Nat.and_lt_two_pow j hi)]
  by_cases hb : b = n
  · simp [hb]
  · rw [if_neg hb, if_neg hb, if_neg hb, Nat.testBit_and]

/-- The guarded lower-triangle definition agrees with the plain subset
test. -/
theorem submaskQ_eq (i j : ℕ) : submaskQ i j = if j &&& i = j then 1 else 0 := by
  rw [submaskQ]
  by_cases hle : j ≤ i
  · rw [if_pos hle]
  · rw [if_neg hle, eq_comm]
    by_cases h : j &&& i = j
    · exact absurd (h ▸ Nat.and_le_right) hle
    · rw [if_neg h]

theorem submaskQ_self (i : ℕ) : submaskQ i i = 1 := by
  rw [submaskQ_eq, if_pos]
  apply Nat.eq_of_testBit_eq
  intro b
  rw [Nat.testBit_and, Bool.and_self]

theorem submaskQ_shift_left {n i j : ℕ} (hi : i < 2 ^ n) (hj : j < 2 ^ n) :
    submaskQ (2 ^ n + i) j = submaskQ i j := by
  rw [submaskQ_eq, submaskQ_eq, land_two_pow_add_right hi hj]

theorem submaskQ_high_low {n i j : ℕ} (hi : i < 2 ^ n) (_hj : j < 2 ^ n) :
    submaskQ i (2 ^ n + j) = 0 := by
  rw [submaskQ_eq, if_neg]
  intro h
  have h1 : (2 ^ n + j) &&& i ≤ i := Nat.and_le_right
  omega

theorem submaskQ_shift_both {n i j : ℕ} (hi : i < 2 ^ n) (hj : j < 2 ^ n) :
    submaskQ (2 ^ n + i) (2 ^ n + j) = submaskQ i j := by
  rw [submaskQ_eq, submaskQ_eq, land_two_pow_add_both hi hj]
  by_cases h : j &&& i = j
  · rw [if_pos h, if_pos (by omega)]
  · rw [if_neg h, if_neg (by omega)]

/-- Bridge between the crate's list-fold sums and `Finset` sums. -/
theorem list_range_map_sum (m : ℕ) (f : ℕ → ℚ) :
    ((List.range m).map f).sum = ∑ k ∈ Finset.range m, f k := by
  induction m with
  | zero => simp
  | succ m ih =>
      rw [List.range_succ, List.map_append, List.sum_append, Finset.sum_range_succ, ih]
      simp

/-- The coalition-to-expected-value kernel at uptime 1: the inner sum of the
`part` matrix, in `Finset` form. -/
def term1 (n i j : ℕ) : ℚ :=
  ∑ k ∈ Finset.range (2 ^ n), submaskQ i k * (coefQ n k j * submaskQ k j)

theorem part1_delta : ∀ n, ∀ i j, i < 2 ^ n → j < 2 ^ n →
    (submaskQ i j + term1 n i j) * submaskQ i j = if i = j then 1 else 0 := by
  intro n
  induction n with
  | zero =>
      intro i j hi hj
      interval_cases i
      interval_cases j
      simp [term1, submaskQ, coefQ]
  | succ n ih =>
      intro i j hi hj
      have hsplit : ∀ g : ℕ → ℚ, ∑ k ∈ Finset.range (2 ^ (n + 1)), g k =
          (∑ k ∈ Finset.range (2 ^ n), g k) +
          ∑ k ∈ Finset.range (2 ^ n), g (2 ^ n + k) := by
        intro g
        rw [show 2 ^ (n + 1) = 2 ^ n + 2 ^ n by ring, Finset.sum_range_add]
      rcases Nat.lt_or_ge i (2 ^ n) with hilo | hihi
      · rcases Nat.lt_or_ge j (2 ^ n) with hjlo | hjhi
        · -- both low: reduces to the n-fold statement
          have hterm : term1 (n + 1) i j = term1 n i j := by
            rw [term1, term1, hsplit]
            have h2 : ∑ k ∈ Finset.range (2 ^ n),
                submaskQ i (2 ^ n + k) * (coefQ (n + 1) (2 ^ n + k) j * submaskQ (2 ^ n + k) j) = 0 := by
              apply Finset.sum_eq_zero
              intro k hk
              rw [submaskQ_high_low hilo (Finset.mem_range.mp hk), zero_mul]
            rw [h2, add_zero]
            apply Finset.sum_congr rfl
            intro k hk
            have hk' := Finset.mem_range.mp hk
            rw [show coefQ (n + 1) k j = coefQ n k j by rw [coefQ]; rw [if_pos hk', if_pos hjlo]]
          rw [hterm]
          exact ih i j hilo hjlo
        · -- i low, j high: the mask is 0 and i ≠ j
          obtain ⟨j', rfl⟩ : ∃ j', j = 2 ^ n + j' := ⟨j - 2 ^ n, by omega⟩
          have hj' : j' < 2 ^ n := by
            have := hj; rw [pow_succ] at this; omega
          rw [submaskQ_high_low hilo hj', mul_zero, if_neg (by omega)]
      · obtain ⟨i', rfl⟩ : ∃ i', i = 2 ^ n + i' := ⟨i - 2 ^ n, by omega⟩
        have hi' : i' < 2 ^ n := by
          have := hi; rw [pow_succ] at this; omega
        rcases Nat.lt_or_ge j (2 ^ n) with hjlo | hjhi
        · -- i high, j low: the telescoping block
          have hterm : term1 (n + 1) (2 ^ n + i') j = -submaskQ i' j := by
            rw [term1, hsplit]
            have hsum1 : ∑ k ∈ Finset.range (2 ^ n),
                submaskQ (2 ^ n + i') k * (coefQ (n + 1) k j * submaskQ k j) =
                ∑ k ∈ Finset.range (2 ^ n), submaskQ i' k * (coefQ n k j * submaskQ k j) := by
              apply Finset.sum_congr rfl
              intro k hk
              have hk' := Finset.mem_range.mp hk
              rw [submaskQ_shift_left hi' hk',
                show coefQ (n + 1) k j = coefQ n k j by rw [coefQ]; rw [if_pos hk', if_pos hjlo]]
            have hsum2 : ∑ k ∈ Finset.range (2 ^ n),
                submaskQ (2 ^ n + i') (2 ^ n + k) *
                  (coefQ (n + 1) (2 ^ n + k) j * submaskQ (2 ^ n + k) j) =
                ∑ k ∈ Finset.range (2 ^ n),
                  (-(submaskQ i' k * (coefQ n k j * submaskQ k j)) -
                    submaskQ i' k * ((if k = j then 1 else 0) * submaskQ k j)) := by
              apply Finset.sum_congr rfl
              intro k hk
              have hk' := Finset.mem_range.mp hk
              rw [submaskQ_shift_both hi' hk', submaskQ_shift_left hk' hjlo,
                show coefQ (n + 1) (2 ^ n + k) j =
                    -coefQ n k j - (if k = j then 1 else 0) by
                  rw [coefQ]
                  rw [if_neg (by omega), if_pos hjlo, Nat.add_sub_cancel_left]]
              ring
            rw [hsum1, hsum2, Finset.sum_sub_distrib, Finset.sum_neg_distrib]
            have hdelta : ∑ k ∈ Finset.range (2 ^ n),
                submaskQ i' k * ((if k = j then 1 else 0) * submaskQ k j) =
                submaskQ i' j := by
              have : ∀ k, submaskQ i' k * ((if k = j then 1 else 0) * submaskQ k j) =
                  if k = j then submaskQ i' k * submaskQ k j else 0 := by
                intro k
                by_cases h : k = j <;> simp [h]
              rw [Finset.sum_congr rfl (fun k _ => this k), Finset.sum_ite_eq' (Finset.range (2 ^ n)) j]
              rw [if_pos (Finset.mem_range.mpr hjlo), submaskQ_self, mul_one]
            rw [hdelta]
            ring
          rw [hterm, submaskQ_shift_left hi' hjlo, if_neg (by omega)]
          ring
        · -- both high: reduces to the n-fold statement
          obtain ⟨j', rfl⟩ : ∃ j', j = 2 ^ n + j' := ⟨j - 2 ^ n, by omega⟩
          have hj' : j' < 2 ^ n := by
            have := hj; rw [pow_succ] at this; omega
          have hterm : term1 (n + 1) (2 ^ n + i') (2 ^ n + j') = term1 n i' j' := by
            rw [term1, term1, hsplit]
            have h1 : ∑ k ∈ Finset.range (2 ^ n),
                submaskQ (2 ^ n + i') k * (coefQ (n + 1) k (2 ^ n + j') * submaskQ k (2 ^ n + j')) = 0 := by
              apply Finset.sum_eq_zero
              intro k hk
              have hk' := Finset.mem_range.mp hk
              rw [show coefQ (n + 1) k (2 ^ n + j') = 0 by
                rw [coefQ]; rw [if_pos hk', if_neg (by omega)]]
              ring
            rw [h1, zero_add]
            apply Finset.sum_congr rfl
            intro k hk
            have hk' := Finset.mem_range.mp hk
            rw [submaskQ_shift_both hi' hk', submaskQ_shift_both hk' hj',
              show coefQ (n + 1) (2 ^ n + k) (2 ^ n + j') = coefQ n k j' by
                rw [coefQ]
                rw [if_neg (by omega), if_neg (by omega), Nat.add_sub_cancel_left,
                  Nat.add_sub_cancel_left]]
          rw [hterm, submaskQ_shift_both hi' hj', ih i' j' hi' hj']
          by_cases h : i' = j'
          · rw [if_pos h, if_pos (by omega)]
          · rw [if_neg h, if_neg (by omega)]

theorem partQ_one (n : ℕ) (size : List ℕ) (i j : ℕ) :
    partQ (2 ^ n) n 1 size i j = (submaskQ i j + term1 n i j) * submaskQ i j := by
  rw [partQ, termQ, term1, list_range_map_sum]
  simp only [bpQ, base_pQ, one_pow, one_mul]

theorem Fsum_map_fin {α : Type} (l : List α) (g : α → ℚ) :
    Fsum (l.map (fun x => F.fin (g x))) = F.fin ((l.map g).sum) := by
  have aux : ∀ (l : List α) (acc : ℚ),
      (l.map (fun x => F.fin (g x))).foldl F.add (F.fin acc) = F.fin (acc + (l.map g).sum) := by
    intro l
    induction l with
    | nil => intro acc; simp
    | cons x xs ih =>
        intro acc
        simp only [List.map_cons, List.foldl_cons, List.sum_cons]
        rw [show F.add (F.fin acc) (F.fin (g x)) = F.fin (acc + g x) from rfl, ih]
        ring_nf
  rw [Fsum, aux, zero_add]

theorem getD_map_fin (v : List ℚ) (j : ℕ) (h : j < v.length) :
    (v.map F.fin).getD j F.nan = F.fin (v.getD j 0) := by
  rw [List.getD_eq_getElem?_getD, List.getD_eq_getElem?_getD, List.getElem?_map,
    List.getElem?_eq_getElem h]
  rfl

/-! ## Properties of sorted deduplication and hash-map folds

Toolbox shared by claims C3 and C6: the sorted distinct list produced from a
hash set, and the last-occurrence semantics of repeated `HashMap::insert`.
-/

theorem mem_insertSortedNat (x y : ℕ) :
    ∀ l : List ℕ, (y ∈ insertSortedNat x l ↔ y = x ∨ y ∈ l) := by
  intro l
  induction l with
  | nil => simp [insertSortedNat]
  | cons z zs ih =>
      rw [insertSortedNat]
      by_cases h1 : x < z
      · simp [if_pos h1]
      · rw [if_neg h1]
        by_cases h2 : x = z
        · subst h2
          simp [if_pos rfl]
        · rw [if_neg h2]
          simp only [List.mem_cons, ih]
          tauto

theorem pairwise_insertSortedNat (x : ℕ) :
    ∀ l : List ℕ, List.Pairwise (· < ·) l →
      List.Pairwise (· < ·) (insertSortedNat x l) := by
  intro l
  induction l with
  | nil => intro _; simp [insertSortedNat]
  | cons z zs ih =>
      intro hp
      rw [insertSortedNat]
      rcases List.pairwise_cons.mp hp with ⟨hz, hzs⟩
      by_cases h1 : x < z
      · rw [if_pos h1]
        refine List.pairwise_cons.mpr ⟨?_, hp⟩
        intro y hy
        rcases List.mem_cons.mp hy with rfl | hy
        · exact h1
        · exact lt_trans h1 (hz y hy)
      · rw [if_neg h1]
        by_cases h2 : x = z
        · rw [if_pos h2]; exact hp
        · rw [if_neg h2]
          refine List.pairwise_cons.mpr ⟨?_, ih hzs⟩
          intro y hy
          rcases (mem_insertSortedNat x y zs).mp hy with rfl | hy
          · omega
          · exact hz y hy

theorem mem_sortedDedupNat (y : ℕ) :
    ∀ l : List ℕ, (y ∈ sortedDedupNat l ↔ y ∈ l) := by
  intro l
  induction l with
  | nil => simp [sortedDedupNat]
  | cons x xs ih =>
      rw [sortedDedupNat, List.foldr_cons]
      rw [show xs.foldr insertSortedNat [] = sortedDedupNat xs from rfl]
      rw [mem_insertSortedNat]
      simp only [List.mem_cons, ih]

theorem pairwise_sortedDedupNat :
    ∀ l : List ℕ, List.Pairwise (· < ·) (sortedDedupNat l) := by
  intro l
  induction l with
  | nil => simp [sortedDedupNat]
  | cons x xs ih =>
      rw [sortedDedupNat, List.foldr_cons]
      exact pairwise_insertSortedNat x _ ih

theorem sorted_nodup_ext :
    ∀ (l₁ l₂ : List ℕ), List.Pairwise (· < ·) l₁ → List.Pairwise (· < ·) l₂ →
      (∀ x, x ∈ l₁ ↔ x ∈ l₂) → l₁ = l₂ := by
  intro l₁
  induction l₁ with
  | nil =>
      intro l₂ _ _ hm
      cases l₂ with
      | nil => rfl
      | cons b bs => exact absurd ((hm b).mpr (List.mem_cons_self b bs)) (by simp)
  | cons a as ih =>
      intro l₂ h1 h2 hm
      cases l₂ with
      | nil => exact absurd ((hm a).mp (List.mem_cons_self a as)) (by simp)
      | cons b bs =>
          rcases List.pairwise_cons.mp h1 with ⟨ha, has⟩
          rcases List.pairwise_cons.mp h2 with ⟨hb, hbs⟩
          have hab : a = b := by
            rcases List.mem_cons.mp ((hm a).mp (List.mem_cons_self a as)) with h | h
            · exact h
            · rcases List.mem_cons.mp ((hm b).mpr (List.mem_cons_self b bs)) with h' | h'
              · exact h'.symm
              · have := hb a h
                have := ha b h'
                omega
          subst hab
          have htail : ∀ x, x ∈ as ↔ x ∈ bs := by
            intro x
            constructor
            · intro hx
              rcases List.mem_cons.mp ((hm x).mp (List.mem_cons_of_mem a hx)) with rfl | h
              · exact absurd (ha x hx) (lt_irrefl x)
              · exact h
            · intro hx
              rcases List.mem_cons.mp ((hm x).mpr (List.mem_cons_of_mem a hx)) with rfl | h
              · exact absurd (hb x hx) (lt_irrefl x)
              · exact h
          rw [ih bs has hbs htail]

theorem lookupA_insertA_self {α : Type} (k : ℕ) (v : α) :
    ∀ m : List (ℕ × α), lookupA (insertA m k v) k = some v := by
  have hmap : ∀ m : List (ℕ × α), m.any (fun e => e.1 = k) = true →
      lookupA (m.map (fun e => if e.1 = k then (k, v) else e)) k = some v := by
    intro m
    induction m with
    | nil => intro h; simp at h
    | cons e es ih =>
        intro h
        rw [List.map_cons]
        by_cases he : e.1 = k
        · rw [if_pos he, lookupA, List.find?_cons_of_pos _ (by simp)]
          rfl
        · rw [if_neg he, lookupA, List.find?_cons_of_neg _ (by simp [he])]
          have h' : es.any (fun e => e.1 = k) = true := by
            rcases List.any_eq_true.mp h with ⟨x, hx, hxk⟩
            rcases List.mem_cons.mp hx with rfl | hx
            · exact absurd (of_decide_eq_true hxk) he
            · exact List.any_eq_true.mpr ⟨x, hx, hxk⟩
          exact ih h'
  have happ : ∀ m : List (ℕ × α), m.any (fun e => e.1 = k) = false →
      lookupA (m ++ [(k, v)]) k = some v := by
    intro m
    induction m with
    | nil => simp [lookupA]
    | cons e es ih =>
        intro h
        rw [List.any_cons, Bool.or_eq_false_iff] at h
        have he : ¬ (e.1 = k) := by simpa using h.1
        rw [List.cons_append, lookupA, List.find?_cons_of_neg _ (by simp [he])]
        exact ih h.2
  intro m
  rw [insertA]
  by_cases h : m.any (fun e => e.1 = k)
  · rw [if_pos h]; exact hmap m h
  · rw [if_neg h]
    refine happ m ?_
    cases hcase : m.any (fun e => e.1 = k)
    · rfl
    · exact absurd hcase h

theorem lookupA_insertA_ne {α : Type} (k k' : ℕ) (v : α) (hne : k' ≠ k) :
    ∀ m : List (ℕ × α), lookupA (insertA m k v) k' = lookupA m k' := by
  have hmap : ∀ m : List (ℕ × α),
      lookupA (m.map (fun e => if e.1 = k then (k, v) else e)) k' = lookupA m k' := by
    intro m
    induction m with
    | nil => rfl
    | cons e es ih =>
        rw [List.map_cons]
        by_cases he : e.1 = k
        · rw [if_pos he, lookupA, lookupA,
            List.find?_cons_of_neg _ (by
              simp only [decide_eq_true_eq]
              exact fun hh => hne hh.symm),
            List.find?_cons_of_neg _ (by
              simp only [decide_eq_true_eq]
              rw [he]
              exact fun hh => hne hh.symm)]
          exact ih
        · rw [if_neg he, lookupA, lookupA]
          by_cases he' : e.1 = k'
          · rw [List.find?_cons_of_pos _ (by simp [he']),
              List.find?_cons_of_pos _ (by simp [he'])]
          · rw [List.find?_cons_of_neg _ (by simp [he']),
              List.find?_cons_of_neg _ (by simp [he'])]
            exact ih
  intro m
  rw [insertA]
  by_cases h : m.any (fun e => e.1 = k)
  · rw [if_pos h]; exact hmap m
  · rw [if_neg h, lookupA, lookupA, List.find?_append]
    have hd : decide (k = k') = false := decide_eq_false (fun hh => hne hh.symm)
    have hnone : List.find? (fun e => e.1 = k') [(k, v)] = none := by
      simp [List.find?, hd]
    rw [hnone, Option.or_none]

theorem lookupA_foldl_insertA {α β : Type} (key : β → ℕ) (val : β → α) (k : ℕ) :
    ∀ (l : List β) (init : List (ℕ × α)),
    lookupA (l.foldl (fun m x => insertA m (key x) (val x)) init) k =
      (match (l.filter (fun x => key x = k)).getLast? with
        | some x => some (val x)
        | none => lookupA init k) := by
  intro l
  induction l with
  | nil => intro init; simp
  | cons x xs ih =>
      intro init
      rw [List.foldl_cons, ih]
      by_cases hx : key x = k
      · rw [List.filter_cons_of_pos (by simp [hx])]
        rcases hfil : xs.filter (fun x => key x = k) with _ | ⟨y, ys⟩
        · show lookupA (insertA init (key x) (val x)) k = some (val x)
          rw [hx]
          exact lookupA_insertA_self k (val x) init
        · rw [List.getLast?_cons_cons, List.getLast?_eq_getLast (y :: ys) (by simp)]
      · rw [List.filter_cons_of_neg (by simp [hx])]
        rcases hfil : xs.filter (fun x => key x = k) with _ | ⟨y, ys⟩
        · show lookupA (insertA init (key x) (val x)) k = lookupA init k
          exact lookupA_insertA_ne (key x) k (val x) (fun h => hx h.symm) init
        · rfl

theorem keys_insertA_mem {α : Type} (x k : ℕ) (v : α) :
    ∀ m : List (ℕ × α),
      (x ∈ (insertA m k v).map Prod.fst ↔ x = k ∨ x ∈ m.map Prod.fst) := by
  intro m
  rw [insertA]
  by_cases h : m.any (fun e => e.1 = k)
  · rw [if_pos h]
    rcases List.any_eq_true.mp h with ⟨e, he, hek⟩
    have hek' : e.1 = k := of_decide_eq_true hek
    constructor
    · intro hx
      rcases List.mem_map.mp hx with ⟨e', he', rfl⟩
      rcases List.mem_map.mp he' with ⟨e'', he'', rfl⟩
      by_cases h' : e''.1 = k
      · rw [if_pos h']
        exact Or.inl rfl
      · rw [if_neg h']
        exact Or.inr (List.mem_map.mpr ⟨e'', he'', rfl⟩)
    · intro hx
      rcases hx with rfl | hx
      · refine List.mem_map.mpr ⟨(x, v), List.mem_map.mpr ⟨e, he, ?_⟩, rfl⟩
        rw [if_pos hek']
      · rcases List.mem_map.mp hx with ⟨e', he', rfl⟩
        by_cases h' : e'.1 = k
        · exact List.mem_map.mpr ⟨(k, v), List.mem_map.mpr ⟨e', he', by rw [if_pos h']⟩, h'.symm⟩
        · exact List.mem_map.mpr ⟨e', List.mem_map.mpr ⟨e', he', by rw [if_neg h']⟩, rfl⟩
  · rw [if_neg h, List.map_append]
    simp only [List.mem_append, List.map_cons, List.map_nil, List.mem_singleton]
    tauto

theorem keys_foldl_insertA_mem {α β : Type} (key : β → ℕ) (val : β → α) (x : ℕ) :
    ∀ (l : List β) (init : List (ℕ × α)),
      (x ∈ (l.foldl (fun m e => insertA m (key e) (val e)) init).map Prod.fst ↔
        x ∈ init.map Prod.fst ∨ x ∈ l.map key) := by
  intro l
  induction l with
  | nil => intro init; simp
  | cons e es ih =>
      intro init
      rw [List.foldl_cons, ih, keys_insertA_mem]
      simp only [List.map_cons, List.mem_cons]
      tauto

/-! ## Propagation of non-finite doubles

Absorption lemmas used by claim C8: a dot product touching `-∞` and a fold of
the resulting values can never come back to a finite nonzero number.
-/

theorem F.add_left_nonfin {x : F} (y : F) (hx : x.isFinite = false) :
    (F.add x y).isFinite = false := by
  cases x <;> cases y <;> simp_all [F.add, F.isFinite]

theorem F.add_right_nonfin (x : F) {y : F} (hy : y.isFinite = false) :
    (F.add x y).isFinite = false := by
  cases x <;> cases y <;> simp_all [F.add, F.isFinite]

theorem foldl_add_nonfin (l : List F) : ∀ acc : F, acc.isFinite = false →
    (l.foldl F.add acc).isFinite = false := by
  induction l with
  | nil => intro acc h; simpa using h
  | cons x xs ih =>
      intro acc h
      exact ih (F.add acc x) (F.add_left_nonfin x h)

theorem Fsum_nonfin_mem {l : List F} {x : F} (hm : x ∈ l)
    (hx : x.isFinite = false) : (Fsum l).isFinite = false := by
  rw [Fsum]
  have aux : ∀ (l : List F) (acc : F), x ∈ l →
      (l.foldl F.add acc).isFinite = false := by
    intro l
    induction l with
    | nil => intro acc h; cases h
    | cons y ys ih =>
        intro acc h
        rcases List.mem_cons.mp h with rfl | h
        · exact foldl_add_nonfin ys (F.add acc x) (F.add_right_nonfin acc hx)
        · exact ih (F.add acc y) h
  exact aux l (F.fin 0) hm

theorem F.sub_left_nonfin {x : F} (y : F) (hx : x.isFinite = false) :
    (F.sub x y).isFinite = false := by
  rw [F.sub]
  exact F.add_left_nonfin (F.neg y) hx

theorem F.mul_fin_nonfin (w : ℚ) {y : F} (hy : y.isFinite = false) :
    (F.mul (F.fin w) y).isFinite = false := by
  cases y <;> simp_all [F.mul, F.isFinite] <;>
    by_cases h0 : w = 0 <;> simp [h0] <;>
      by_cases h1 : 0 < w <;> simp [h1]

theorem F.maxRust_zero_of_nonfin {x : F} (hx : x.isFinite = false) :
    F.maxRust x (F.fin 0) = F.fin 0 ∨ F.maxRust x (F.fin 0) = F.pinf := by
  cases x <;> simp_all [F.maxRust, F.isFinite]

theorem Fsum_zero_or_pinf {l : List F}
    (h : ∀ x ∈ l, x = F.fin 0 ∨ x = F.pinf) :
    Fsum l = F.fin 0 ∨ Fsum l = F.pinf := by
  rw [Fsum]
  have aux : ∀ (l : List F) (acc : F), (∀ x ∈ l, x = F.fin 0 ∨ x = F.pinf) →
      (acc = F.fin 0 ∨ acc = F.pinf) →
      (l.foldl F.add acc = F.fin 0 ∨ l.foldl F.add acc = F.pinf) := by
    intro l
    induction l with
    | nil => intro acc _ hacc; simpa using hacc
    | cons y ys ih =>
        intro acc h hacc
        apply ih (F.add acc y) (fun x hx => h x (List.mem_cons_of_mem y hx))
        rcases hacc with rfl | rfl <;>
          rcases h y (List.mem_cons_self y ys) with rfl | rfl <;>
            simp [F.add]
  exact aux l (F.fin 0) h (Or.inl rfl)

theorem bitmap_bit_eq_testBit (r c : ℕ) : bitmap_bit r c = Nat.testBit c r := by
  rw [bitmap_bit, Nat.testBit_to_div_mod]
  simp [Nat.shiftRight_eq_div_pow, Nat.and_one_is_mod]

/-! ## Concrete inputs used by counterexamples and witnesses -/

/-- A private link with a single owning operator (secondary "0", uptime 1). -/
def mkPriv (s e : String) (c bw : ℚ) (op : String) : Link :=
  ⟨s, e, c, bw, op, "0", 1, 0, 0⟩

/-- A public link (operators "0", bandwidth 0). -/
def mkPub (s e : String) (c : ℚ) : Link := ⟨s, e, c, 0, "0", "0", 1, 0, 0⟩

/-- Three structurally identical private links owned by three operators. -/
def c1priv : List Link :=
  [mkPriv "AAA1" "BBB1" 10 10 "OpA", mkPriv "AAA1" "BBB1" 10 10 "OpB",
   mkPriv "AAA1" "BBB1" 10 10 "OpC"]

/-- One public link covering both switches. -/
def c1pub : List Link := [mkPub "AAA1" "BBB1" 100]

/-- One demand between the two cities. -/
def c1dem : List Demand := [⟨"AAA", "BBB", 5, 1⟩]

/-- A solver behaviour realising the additive game `v(S) = |S|` on the
consolidated map of `c1priv`/`c1pub`/`c1dem`: of the 11 kept columns, the 5
public/helper columns always survive and each operator contributes 2 private
columns, so the surviving-column count determines `|S|`. -/
def oracleC1 : LPOracle := fun _ _ cm => some (((cm.count true : ℚ) - 5) / 2)

/-- A trivial random stream (the sampled path is not reached below 10
operators). -/
def rng0 : ℕ → ℕ → ℕ := fun _ _ => 0

/-- A solver behaviour returning the constant objective 5. -/
def oracle5 : LPOracle := fun _ _ _ => some 5

/-- A solver behaviour on which every LP solve fails. -/
def oracleFail : LPOracle := fun _ _ _ => none

/-- Primitives with a single public column and no bandwidth rows. -/
def c2prims : LPPrimitives := ⟨[], [0], [], [], ["0"], ["0"]⟩

/-- A link map whose two private links share capacity pool 1 with different
bandwidths and operators. -/
def c3map : List Link :=
  [⟨"A1", "B1", 1, 5, "A", "A", 1, 1, 0⟩, ⟨"A1", "B1", 1, 7, "B", "B", 1, 1, 0⟩]

/-- A private link whose primary operator is the reserved literal "0". -/
def c4priv : List Link := [mkPriv "AAA1" "BBB1" 10 10 "0"]

/-- Private links mixing a reserved-operator link with an ordinary one. -/
def c9priv : List Link :=
  [mkPriv "AAA1" "BBB1" 10 10 "0", mkPriv "AAA1" "BBB1" 10 10 "OpX"]

/-- A single ordinary private link. -/
def c10priv : List Link := [mkPriv "AAA1" "BBB1" 10 10 "OpX"]

/-- Public links including the switch label "äö1", which contains a digit but
whose byte index 3 falls inside the character 'ö'. -/
def c10pub : List Link := [mkPub "AAA1" "BBB1" 100, mkPub "äö1" "BBB1" 100]

/-- Two private links with non-consecutive positive shared ids 7 and 2. -/
def c6links : List Link :=
  [⟨"AAA1", "BBB1", 10, 10, "OpX", "0", 1, 7, 0⟩,
   ⟨"BBB1", "CCC1", 4, 8, "OpY", "OpZ", 1, 2, 0⟩]

/-! ## Theorems -/

/-- C7.  In the merged link map, every public link has its cost increased by
exactly the hybrid penalty while every helper link keeps its cost unchanged;
every public and helper link ends with bandwidth 0, operators "0", uptime 1
and shared 0; private links are not modified; and the order is private,
public, helper. -/
theorem c7_merge_link_components_spec (priv pub help : List Link) (q : ℚ) :
    (merge_link_components priv pub help q).length =
      priv.length + pub.length + help.length ∧
    (∀ i, i < priv.length →
      (merge_link_components priv pub help q).getD i default = priv.getD i default) ∧
    (∀ i, i < pub.length →
      (merge_link_components priv pub help q).getD (priv.length + i) default =
        { pub.getD i default with
            cost := (pub.getD i default).cost + q
            bandwidth := 0
            operator1 := "0"
            operator2 := "0"
            uptime := 1
            shared := 0 }) ∧
    (∀ i, i < help.length →
      (merge_link_components priv pub help q).getD (priv.length + pub.length + i) default =
        { help.getD i default with
            bandwidth := 0
            operator1 := "0"
            operator2 := "0"
            uptime := 1
            shared := 0 }) := by
  refine ⟨?_, ?_, ?_, ?_⟩
  · simp [merge_link_components]; omega
  · intro i hi
    rw [merge_link_components, List.append_assoc]
    simp only [List.getD_eq_getElem?_getD, List.getElem?_append_left hi]
  · intro i hi
    rw [merge_link_components, List.append_assoc]
    simp only [List.getD_eq_getElem?_getD,
      List.getElem?_append_right (Nat.le_add_right priv.length i), Nat.add_sub_cancel_left,
      List.getElem?_append_left (show i < (pub.map _).length by simpa using hi),
      List.getElem?_map, List.getElem?_eq_getElem hi]
    simp
  · intro i hi
    rw [merge_link_components, List.append_assoc, Nat.add_assoc]
    simp only [List.getD_eq_getElem?_getD,
      List.getElem?_append_right (Nat.le_add_right priv.length (pub.length + i)),
      Nat.add_sub_cancel_left,
      List.getElem?_append_right (show (pub.map _).length ≤ pub.length + i by
        simp),
      List.length_map, Nat.add_sub_cancel_left,
      List.getElem?_map, List.getElem?_eq_getElem hi]
    simp

/-- Witness for C7 at a concrete instance. -/
theorem c7_merge_link_components_spec_witness :
    (merge_link_components [mkPriv "A1" "B1" 1 2 "X"] [mkPub "A1" "B1" 50]
        [mkHelperLink "AAA" "A1" 0 1] 5).getD 1 default =
      { mkPub "A1" "B1" 50 with
          cost := 55
          bandwidth := 0
          operator1 := "0"
          operator2 := "0"
          uptime := 1
          shared := 0 } := by
  have h := (c7_merge_link_components_spec [mkPriv "A1" "B1" 1 2 "X"]
    [mkPub "A1" "B1" 50] [mkHelperLink "AAA" "A1" 0 1] 5).2.2.1 0 (by decide)
  simpa [mkPub, show (50 : ℚ) + 5 = 55 by norm_num] using h

set_option maxRecDepth 4000 in
/-- C1, counterexample.  On a symmetric 3-operator input (every operator owns
one copy of the same link) with a solver realising the additive game
`v(S) = |S|` and uptime 1, `network_shapley` succeeds with equal Shapley
values 1 and reported percentages 0.3333 each: the 4-dp-rounded percentages
sum to 0.9999, not 1, even though every Shapley value is positive. -/
theorem c1_rounded_percents_counterexample :
    network_shapley oracleC1 rng0 c1priv c1pub c1dem 1 5 1 =
      Outcome.ok
        [⟨"OpA", 1, 3333/10000⟩, ⟨"OpB", 1, 3333/10000⟩, ⟨"OpC", 1, 3333/10000⟩] ∧
    ((3333 : ℚ)/10000 + 3333/10000 + 3333/10000 ≠ 1) ∧ (0 : ℚ) < 1 := by
  refine ⟨by decide, by norm_num, by norm_num⟩

/-- C2, counterexample.  With one operator (the exact path), primitives whose
single column is public, and a solver returning objective 5, the empty
coalition is handed to the solver: `v(0) = 5 ≠ 0`, and the expected-value
override copies it, `E[v][0] = 5 ≠ 0`. -/
theorem c2_exact_path_counterexample :
    (solve_coalition_values oracle5 rng0 ["A"] c2prims).1.getD 0 F.nan = F.fin 5 ∧
    (compute_expected_values (solve_coalition_values oracle5 rng0 ["A"] c2prims).1
        (solve_coalition_values oracle5 rng0 ["A"] c2prims).2 (49/50) 1).getD 0 F.nan =
      F.fin 5 ∧
    F.fin (5 : ℚ) ≠ F.fin 0 := by
  refine ⟨by decide, by decide, by decide⟩

theorem bitmap_bit_zero (i : ℕ) : bitmap_bit i 0 = false := by
  simp [bitmap_bit]

theorem csize_zero (n : ℕ) : csize n 0 = 0 := by
  simp [csize, bitmap_bit_zero]

theorem get_coalition_subset_zero (operators : List String) :
    get_coalition_subset operators 0 = [] := by
  rw [get_coalition_subset]
  exact List.filterMap_eq_nil_iff.mpr (fun p _ => by rw [bitmap_bit_zero]; rfl)

theorem sample_loop_subset (rng : ℕ → ℕ) :
    ∀ (k t : ℕ) (pool : List ℕ), ∀ x ∈ sample_loop rng t k pool, x ∈ pool := by
  intro k
  induction k with
  | zero => intro t pool x hx; cases hx
  | succ k ih =>
      intro t pool x hx
      rw [sample_loop] at hx
      by_cases hp : pool.isEmpty
      · rw [if_pos hp] at hx; cases hx
      · rw [if_neg hp] at hx
        have hne : pool ≠ [] := fun h => hp (by simp [h])
        have hlen : 0 < pool.length := List.length_pos.mpr hne
        rcases List.mem_cons.mp hx with rfl | hx
        · rw [swap_remove]
          have hlt : rng t % pool.length < pool.length := Nat.mod_lt _ hlen
          rw [List.getD_eq_getElem?_getD, List.getElem?_eq_getElem hlt]
          exact List.getElem_mem hlt
        · have hx' := ih (t + 1) (swap_remove pool (rng t % pool.length)).2 x hx
          rw [swap_remove] at hx'
          have hx'' := List.mem_of_mem_dropLast hx'
          rcases List.mem_or_eq_of_mem_set hx'' with h | rfl
          · exact h
          · rw [List.getLast?_eq_getLast pool hne]
            exact List.getLast_mem hne

theorem foldl_preserve {α β : Type} {P : α → Prop} (f : α → β → α) (l : List β)
    (init : α) (h0 : P init) (hstep : ∀ a b, b ∈ l → P a → P (f a b)) :
    P (l.foldl f init) := by
  induction l generalizing init with
  | nil => exact h0
  | cons x xs ih =>
      exact ih (f init x) (hstep init x (List.mem_cons_self x xs) h0)
        (fun a b hb => hstep a b (List.mem_cons_of_mem x hb))

theorem getD_set_ne_zero {l : List F} {i : ℕ} (hi : i ≠ 0) (x : F) :
    (l.set i x).getD 0 F.nan = l.getD 0 F.nan := by
  rw [List.getD_eq_getElem?_getD, List.getD_eq_getElem?_getD,
    List.getElem?_set_ne hi]

/-- C2, amended.  The empty coalition is special-cased only on the sampled
path: (i) on the exact path (fewer than 10 operators) coalition 0 is handed
to the solver like any other coalition, so `v(0)` is the solver's value for
the public-columns-only restriction (`−∞` when no column survives), not 0;
(ii) on the sampled path (10 or more operators, dispatched by
`solve_coalition_values`) `v(0)` is set to 0 without a solve; (iii) the
expected-value override copies `E[v][0] = v(0)` whatever that value is. -/
theorem c2_empty_coalition_amended :
    (∀ (oracle : LPOracle) (rng : ℕ → ℕ → ℕ) (operators : List String)
        (p : LPPrimitives), operators.length < 10 →
      (solve_coalition_values oracle rng operators p).1.getD 0 F.nan =
        (match solve_single_coalition oracle p (get_coalition_masks [] p).1
            (get_coalition_masks [] p).2 with
          | some v => F.fin v
          | none => F.ninf)) ∧
    (∀ (oracle : LPOracle) (rng : ℕ → ℕ → ℕ) (operators : List String)
        (p : LPPrimitives), 10 ≤ operators.length →
      (solve_coalition_values oracle rng operators p).1.getD 0 F.nan = F.fin 0) ∧
    (∀ (svalue : List F) (size : List ℕ) (u : ℚ) (n_ops : ℕ),
        0 < svalue.length →
      (compute_expected_values svalue size u n_ops).getD 0 F.nan =
        svalue.getD 0 F.nan) := by
  refine ⟨?_, ?_, ?_⟩
  · intro oracle rng operators p hlt
    rw [solve_coalition_values]
    simp only [if_neg (by omega : ¬ 10 ≤ operators.length)]
    have hpos : 0 < 2 ^ operators.length := Nat.pos_pow_of_pos _ (by norm_num)
    rw [List.getD_eq_getElem?_getD, List.getElem?_map, List.getElem?_range hpos]
    rw [Option.map_some', Option.getD_some, coalition_value, get_coalition_subset_zero]
  · intro oracle rng operators p hge
    rw [solve_coalition_values]
    simp only [if_pos hge]
    rw [solve_coalition_values_sampled]
    simp only []
    have h2 : 2 ≤ 2 ^ operators.length := by
      calc 2 = 2 ^ 1 := rfl
      _ ≤ 2 ^ operators.length := Nat.pow_le_pow_right (by norm_num) (by omega)
    apply foldl_preserve
      (P := fun svsz : List F × List ℕ => svsz.1.getD 0 F.nan = F.fin 0)
    · apply foldl_preserve (P := fun sv : List F => sv.getD 0 F.nan = F.fin 0)
      · rw [getD_set_ne_zero (by omega), List.getD_eq_getElem?_getD,
          List.getElem?_set_self (by simp)]
        rfl
      · intro a r hr ha
        obtain ⟨k, hkmem, hr2⟩ := List.mem_flatMap.mp hr
        obtain ⟨idx, hidxmem, rfl⟩ := List.mem_map.mp hr2
        have hpool := sample_loop_subset _ _ _ _ idx hidxmem
        have hcs : csize operators.length idx = k :=
          of_decide_eq_true (List.mem_filter.mp hpool).2
        have hk1 : 1 ≤ k := (List.mem_range'_1.mp hkmem).1
        dsimp only
        exact (getD_set_ne_zero
          (by intro h; rw [h, csize_zero] at hcs; omega) _).trans ha
    · intro a k hk ha
      have hk1 : 1 ≤ k := (List.mem_range'_1.mp hk).1
      by_cases hkn : (((List.range (2 ^ operators.length)).filter
          (fun idx => csize operators.length idx = k)).filterMap
          (fun idx => if F.gt (a.1.getD idx F.nan) F.ninf then
            some (a.1.getD idx F.nan) else none)).isEmpty
      · rw [if_pos hkn]; exact ha
      · rw [if_neg hkn]
        apply foldl_preserve
          (P := fun svsz : List F × List ℕ => svsz.1.getD 0 F.nan = F.fin 0) _ _ _ ha
        intro b idx hidx hb
        have hcs : csize operators.length idx = k :=
          of_decide_eq_true (List.mem_filter.mp hidx).2
        have hidx0 : idx ≠ 0 := by
          intro h
          rw [h, csize_zero] at hcs
          omega
        by_cases hbeq : F.beq (b.1.getD idx F.nan) F.ninf = true
        · rw [if_pos hbeq]
          exact (getD_set_ne_zero hidx0 _).trans hb
        · rw [if_neg hbeq]
          exact hb
  · intro svalue size u n_ops hpos
    rw [compute_expected_values]
    simp only [if_pos hpos]
    rw [List.getD_eq_getElem?_getD, List.getElem?_set_self (by simpa using hpos)]
    rfl

/-- Ten operator names, reaching the sampled path. -/
def opsTen : List String := ["A", "B", "C", "D", "E", "G", "H", "I", "J", "K"]

/-- Witness for C2 at concrete instances of all three parts. -/
theorem c2_empty_coalition_amended_witness :
    ((solve_coalition_values oracle5 rng0 ["A"] c2prims).1.getD 0 F.nan =
      (match solve_single_coalition oracle5 c2prims (get_coalition_masks [] c2prims).1
          (get_coalition_masks [] c2prims).2 with
        | some v => F.fin v
        | none => F.ninf)) ∧
    (solve_coalition_values oracle5 rng0 opsTen c2prims).1.getD 0 F.nan = F.fin 0 ∧
    (compute_expected_values [F.fin 5, F.fin 5] [0, 1] (49/50) 1).getD 0 F.nan =
      [F.fin 5, F.fin 5].getD 0 F.nan :=
  ⟨c2_empty_coalition_amended.1 oracle5 rng0 ["A"] c2prims (by decide),
   c2_empty_coalition_amended.2.1 oracle5 rng0 opsTen c2prims (by decide),
   c2_empty_coalition_amended.2.2 [F.fin 5, F.fin 5] [0, 1] (49/50) 1 (by decide)⟩

/-- C3, counterexample.  With two private links in shared pool 1 (bandwidths
5 then 7, operators "A" then "B"), the bandwidth bound and the row tags come
from the last link (7, "B"), while the first link in link-map order has
bandwidth 5 and operator "A". -/
theorem c3_first_occurrence_counterexample :
    (build_bandwidth_constraints c3map 2).getD 0 0 = 7 ∧
    (c3map.find? (fun l => l.shared = 1)).map (fun l => l.bandwidth) = some 5 ∧
    (7 : ℚ) ≠ 5 ∧
    (extract_operator_indices c3map 2 [1] [0, 1]).1.getD 0 "" = "B" ∧
    (c3map.find? (fun l => l.shared = 1)).map (fun l => l.operator1) = some "A" ∧
    "B" ≠ "A" := by
  refine ⟨by decide, by decide, by decide, by decide, by decide, by decide⟩

/-- C3, amended.  The bandwidth bound for shared id `s` is the bandwidth of
the LAST private link (in link-map order) whose shared id is `s` (0 when the
id is absent), because `HashMap::insert` overwrites; and when the private
prefix's distinct shared ids are exactly `{1, …, K}` (as the pipeline
guarantees after compaction), the inequality-row tags `row_op1[s-1]`,
`row_op2[s-1]` are the operators of that same last-occurring link. -/
theorem c3_last_occurrence (link_map : List Link) (n_private : ℕ)
    (commodities keep : List ℕ) (s K : ℕ) (h1 : 1 ≤ s) :
    (s ≤ ((link_map.take n_private).map (fun l => l.shared)).foldl max 0 →
      (build_bandwidth_constraints link_map n_private).getD (s - 1) 0 =
        (match ((link_map.take n_private).filter (fun l => l.shared = s)).getLast? with
          | some l => l.bandwidth
          | none => 0)) ∧
    (sortedDedupNat ((link_map.take n_private).map (fun l => l.shared)) =
        List.range' 1 K → s ≤ K →
      (extract_operator_indices link_map n_private commodities keep).1.getD (s - 1) "" =
        (match ((link_map.take n_private).filter (fun l => l.shared = s)).getLast? with
          | some l => l.operator1
          | none => "") ∧
      (extract_operator_indices link_map n_private commodities keep).2.1.getD (s - 1) "" =
        (match ((link_map.take n_private).filter (fun l => l.shared = s)).getLast? with
          | some l => l.operator2
          | none => "")) := by
  constructor
  · intro h2
    rw [build_bandwidth_constraints]
    have hne : ((link_map.take n_private).map (fun l => l.shared)).isEmpty = false := by
      cases hmap : ((link_map.take n_private).map (fun l => l.shared)) with
      | nil => rw [hmap] at h2; simp at h2; omega
      | cons a as => rfl
    simp only [hne, Bool.false_eq_true, if_false]
    have hs1 : s - 1 < ((link_map.take n_private).map (fun l => l.shared)).foldl max 0 := by
      omega
    rw [List.getD_eq_getElem?_getD, List.getElem?_map, List.getElem?_range hs1]
    simp only [Option.map_some', Option.getD_some]
    have hsucc : s - 1 + 1 = s := by omega
    rw [hsucc]
    rw [lookupA_foldl_insertA (fun l => l.shared) (fun l => l.bandwidth) s
      (link_map.take n_private) []]
    cases hlast : ((link_map.take n_private).filter (fun l => l.shared = s)).getLast? with
    | none => rfl
    | some l => rfl
  · intro hK hsK
    rw [extract_operator_indices]
    simp only []
    have hsorted : sortedDedupNat
        (((link_map.take n_private).foldl
          (fun m l => insertA m l.shared (l.operator1, l.operator2)) []).map Prod.fst) =
        List.range' 1 K := by
      apply sorted_nodup_ext _ _ (pairwise_sortedDedupNat _) (List.pairwise_lt_range' 1 K)
      intro x
      have hkeys := keys_foldl_insertA_mem (fun l : Link => l.shared)
        (fun l : Link => (l.operator1, l.operator2)) x (link_map.take n_private) []
      simp only [] at hkeys
      rw [mem_sortedDedupNat, hkeys]
      rw [show x ∈ ([] : List (ℕ × String × String)).map Prod.fst ↔ False by simp]
      rw [← hK, mem_sortedDedupNat]
      simp
    rw [hsorted]
    have hrange : (List.range' 1 K)[s - 1]? = some s := by
      rw [List.getElem?_range' 1 1 (show s - 1 < K by omega)]
      congr 1
      omega
    constructor
    · rw [List.getD_eq_getElem?_getD, List.getElem?_map, hrange]
      simp only [Option.map_some', Option.getD_some]
      rw [lookupA_foldl_insertA (fun l => l.shared)
        (fun l => (l.operator1, l.operator2)) s (link_map.take n_private) []]
      cases hlast : ((link_map.take n_private).filter (fun l => l.shared = s)).getLast? with
      | none => rfl
      | some l => rfl
    · rw [List.getD_eq_getElem?_getD, List.getElem?_map, hrange]
      simp only [Option.map_some', Option.getD_some]
      rw [lookupA_foldl_insertA (fun l => l.shared)
        (fun l => (l.operator1, l.operator2)) s (link_map.take n_private) []]
      cases hlast : ((link_map.take n_private).filter (fun l => l.shared = s)).getLast? with
      | none => rfl
      | some l => rfl

/-- Witness for C3 at the two-link shared-pool instance. -/
theorem c3_last_occurrence_witness :
    (build_bandwidth_constraints c3map 2).getD 0 0 =
      (match ((c3map.take 2).filter (fun l => l.shared = 1)).getLast? with
        | some l => l.bandwidth
        | none => 0) ∧
    (extract_operator_indices c3map 2 [1] [0, 1]).1.getD 0 "" =
      (match ((c3map.take 2).filter (fun l => l.shared = 1)).getLast? with
        | some l => l.operator1
        | none => "") ∧
    (extract_operator_indices c3map 2 [1] [0, 1]).2.1.getD 0 "" =
      (match ((c3map.take 2).filter (fun l => l.shared = 1)).getLast? with
        | some l => l.operator2
        | none => "") :=
  ⟨(c3_last_occurrence c3map 2 [1] [0, 1] 1 1 (by decide)).1 (by decide),
   ((c3_last_occurrence c3map 2 [1] [0, 1] 1 1 (by decide)).2
     (by decide) (by decide)).1,
   ((c3_last_occurrence c3map 2 [1] [0, 1] 1 1 (by decide)).2
     (by decide) (by decide)).2⟩

/-- C4, failing-input evaluation.  On an input whose only private link has
`operator1 = "0"` (and which passes every other check), `network_shapley`
does not return `ReservedOperatorName`: `enumerate_operators` silently drops
"0", `validate_operator_names` sees an empty list, and the pipeline runs to
completion, returning an empty result. -/
theorem c4_reserved_operator_unreachable :
    enumerate_operators c4priv = [] ∧
    validate_operator_names (enumerate_operators c4priv) = Outcome.ok () ∧
    network_shapley oracle5 rng0 c4priv c1pub c1dem 1 5 1 = Outcome.ok [] := by
  refine ⟨by decide, by decide, by decide⟩

/-- C5, counterexample.  At uptime 1, a coalition-value vector containing
`-∞` (a failed empty-coalition solve) is not reproduced: `0 × (−∞) = NaN`
poisons the dot product, so `compute_expected_values [-∞, 7] ≠ [-∞, 7]`. -/
theorem c5_neg_inf_counterexample :
    compute_expected_values [F.ninf, F.fin 7] [0, 1] 1 1 = [F.ninf, F.nan] ∧
    ([F.ninf, F.nan] ≠ [F.ninf, F.fin 7]) := by
  refine ⟨by decide, by decide⟩

/-- C5, amended.  For every operator count `n`, every size vector and every
coalition-value vector of finite doubles, `compute_expected_values` at uptime
1 is the identity (the inclusion-exclusion `part` matrix degenerates to the
identity matrix). -/
theorem c5_uptime_one_identity (n : ℕ) (size : List ℕ) (v : List ℚ)
    (hv : v.length = 2 ^ n) :
    compute_expected_values (v.map F.fin) size 1 n = v.map F.fin := by
  have hlen : (v.map F.fin).length = 2 ^ n := by simpa using hv
  have hpos : 0 < (v.map F.fin).length := by rw [hlen]; positivity
  rw [compute_expected_values]
  simp only [hlen, if_pos (hlen ▸ hpos)]
  have hentry : ∀ i, i < 2 ^ n →
      Fsum ((List.range (2 ^ n)).map (fun j =>
        F.mul (F.fin (partQ (2 ^ n) n 1 size i j)) ((v.map F.fin).getD j F.nan))) =
      F.fin (v.getD i 0) := by
    intro i hi
    have hmap : (List.range (2 ^ n)).map (fun j =>
        F.mul (F.fin (partQ (2 ^ n) n 1 size i j)) ((v.map F.fin).getD j F.nan)) =
        (List.range (2 ^ n)).map (fun j =>
          F.fin (partQ (2 ^ n) n 1 size i j * v.getD j 0)) := by
      apply List.map_congr_left
      intro j hj
      rw [getD_map_fin v j (by rw [hv]; exact List.mem_range.mp hj)]
      rfl
    rw [hmap, show (fun j => F.fin (partQ (2 ^ n) n 1 size i j * v.getD j 0)) =
        (fun j => F.fin ((fun j => partQ (2 ^ n) n 1 size i j * v.getD j 0) j)) from rfl,
      Fsum_map_fin, list_range_map_sum]
    congr 1
    have hδ : ∀ j ∈ Finset.range (2 ^ n),
        partQ (2 ^ n) n 1 size i j * v.getD j 0 =
        if j = i then v.getD j 0 else 0 := by
      intro j hj
      rw [partQ_one, part1_delta n i j hi (Finset.mem_range.mp hj)]
      by_cases h : j = i
      · rw [if_pos h, if_pos h.symm, one_mul]
      · rw [if_neg h, if_neg (fun hh => h hh.symm), zero_mul]
    rw [Finset.sum_congr rfl hδ, Finset.sum_ite_eq' (Finset.range (2 ^ n)) i,
      if_pos (Finset.mem_range.mpr hi)]
  apply List.ext_getElem
  · simp [hv]
  · intro i h1 h2
    have hi : i < 2 ^ n := by simpa [hv] using h2
    by_cases h0 : i = 0
    · subst h0
      rw [List.getElem_set_self]
      · rw [getD_map_fin v 0 (by rw [hv]; positivity), List.getElem_map]
        congr 1
        rw [List.getD_eq_getElem?_getD, List.getElem?_eq_getElem (by rw [hv]; positivity)]
        rfl
    · rw [List.getElem_set_ne (fun hh => h0 hh.symm), List.getElem_map, List.getElem_map,
        List.getElem_range]
      rw [hentry i hi]
      congr 1
      rw [List.getD_eq_getElem?_getD, List.getElem?_eq_getElem (hv ▸ hi)]
      rfl

theorem f64_to_decimal_nonfin {x : F} (hx : x.isFinite = false) :
    f64_to_decimal x = 0 := by
  cases x <;> simp_all [f64_to_decimal, F.isFinite]

theorem round_decimal_zero : round_decimal 0 = 0 := by
  rw [round_decimal, roundHalfEven]
  norm_num

theorem c8_zero_output_of_pos_sizes (n : ℕ) (operators : List String)
    (size : List ℕ) (u : ℚ) (hn : 1 ≤ n) (hops : operators.length = n)
    (hsz : ∀ k, k < n → ∀ i ∈ with_op n k, size.getD i 0 ≠ 0) :
    calculate_shapley_values operators
      (compute_expected_values
        ((List.range (2 ^ n)).map (fun j => if j = 0 then F.fin 0 else F.ninf))
        size u n)
      size n =
    Outcome.ok (operators.map (fun op => ⟨op, 0, 0⟩)) := by
  have h2 : 2 ≤ 2 ^ n := by
    calc 2 = 2 ^ 1 := rfl
    _ ≤ 2 ^ n := Nat.pow_le_pow_right (by norm_num) hn
  have hsvlen : ((List.range (2 ^ n)).map
      (fun j => if j = 0 then F.fin 0 else F.ninf)).length = 2 ^ n := by simp
  have hev : ∀ i, 0 < i → i < 2 ^ n →
      ((compute_expected_values
        ((List.range (2 ^ n)).map (fun j => if j = 0 then F.fin 0 else F.ninf))
        size u n).getD i F.nan).isFinite = false := by
    intro i hi0 hi
    rw [compute_expected_values]
    simp only [hsvlen, if_pos (by omega : 0 < 2 ^ n)]
    rw [List.getD_eq_getElem?_getD, List.getElem?_set_ne (by omega : (0 : ℕ) ≠ i),
      List.getElem?_map, List.getElem?_range hi]
    simp only [Option.map_some', Option.getD_some]
    apply Fsum_nonfin_mem
      (x := F.mul (F.fin (partQ (2 ^ n) n u size i 1))
        (((List.range (2 ^ n)).map (fun j => if j = 0 then F.fin 0 else F.ninf)).getD 1 F.nan))
    · exact List.mem_map.mpr ⟨1, List.mem_range.mpr (by omega), rfl⟩
    · have hone : ((List.range (2 ^ n)).map
          (fun j => if j = 0 then F.fin 0 else F.ninf)).getD 1 F.nan = F.ninf := by
        rw [List.getD_eq_getElem?_getD, List.getElem?_map, List.getElem?_range (by omega)]
        simp
      rw [hone]
      exact F.mul_fin_nonfin _ rfl
  have hsh : ∀ k, k < n →
      ((shapleyF (compute_expected_values
        ((List.range (2 ^ n)).map (fun j => if j = 0 then F.fin 0 else F.ninf))
        size u n) size n k).isFinite = false) := by
    intro k hk
    rw [shapleyF]
    have hkpow : 2 ^ k < 2 ^ n := Nat.pow_lt_pow_right (by norm_num) hk
    apply Fsum_nonfin_mem
      (x := F.mul (F.fin (shapley_weight n size (2 ^ k)))
        (F.sub ((compute_expected_values _ size u n).getD (2 ^ k) F.nan)
          ((compute_expected_values _ size u n).getD (2 ^ k - 2 ^ k) F.nan)))
    · refine List.mem_map.mpr ⟨2 ^ k, ?_, rfl⟩
      rw [with_op]
      refine List.mem_filter.mpr ⟨List.mem_range.mpr hkpow, ?_⟩
      rw [bitmap_bit_eq_testBit, Nat.testBit_two_pow_self]
    · exact F.mul_fin_nonfin _
        (F.sub_left_nonfin _ (hev (2 ^ k) (Nat.pos_pow_of_pos k (by norm_num)) hkpow))
  have hclip : ∀ k, k < n →
      (clipF (compute_expected_values
        ((List.range (2 ^ n)).map (fun j => if j = 0 then F.fin 0 else F.ninf))
        size u n) size n k = F.fin 0 ∨
       clipF (compute_expected_values
        ((List.range (2 ^ n)).map (fun j => if j = 0 then F.fin 0 else F.ninf))
        size u n) size n k = F.pinf) := by
    intro k hk
    rw [clipF]
    exact F.maxRust_zero_of_nonfin (hsh k hk)
  have htot : totalClipF (compute_expected_values
      ((List.range (2 ^ n)).map (fun j => if j = 0 then F.fin 0 else F.ninf))
      size u n) size n = F.fin 0 ∨
      totalClipF (compute_expected_values
      ((List.range (2 ^ n)).map (fun j => if j = 0 then F.fin 0 else F.ninf))
      size u n) size n = F.pinf := by
    rw [totalClipF]
    apply Fsum_zero_or_pinf
    intro x hx
    rcases List.mem_map.mp hx with ⟨k, hk, rfl⟩
    exact hclip k (List.mem_range.mp hk)
  have hpct : ∀ k, k < n →
      f64_to_decimal (percentF (compute_expected_values
        ((List.range (2 ^ n)).map (fun j => if j = 0 then F.fin 0 else F.ninf))
        size u n) size n k) = 0 := by
    intro k hk
    rw [percentF]
    rcases htot with h | h <;> rw [h]
    · simp only [show F.gt (F.fin 0) (F.fin 0) = false from by simp [F.gt],
        Bool.false_eq_true, if_false]
      rcases hclip k hk with h' | h' <;> rw [h'] <;> rfl
    · simp only [show F.gt F.pinf (F.fin 0) = true from rfl, if_true]
      rcases hclip k hk with h' | h' <;> rw [h'] <;> rfl
  have hguard : ¬((List.range operators.length).any (fun k =>
      (with_op n k).any (fun i => size.getD i 0 = 0)) = true) := by
    intro h
    rw [List.any_eq_true] at h
    obtain ⟨k, hkmem, hk2⟩ := h
    rw [List.any_eq_true] at hk2
    obtain ⟨i, himem, hi2⟩ := hk2
    exact hsz k (hops ▸ List.mem_range.mp hkmem) i himem (of_decide_eq_true hi2)
  rw [calculate_shapley_values, if_neg hguard]
  refine congrArg Outcome.ok ?_
  have hmap : operators.enum.map (fun p =>
      (⟨p.2, round_decimal (f64_to_decimal (shapleyF (compute_expected_values
          ((List.range (2 ^ n)).map (fun j => if j = 0 then F.fin 0 else F.ninf))
          size u n) size n p.1)),
        round_decimal (f64_to_decimal (percentF (compute_expected_values
          ((List.range (2 ^ n)).map (fun j => if j = 0 then F.fin 0 else F.ninf))
          size u n) size n p.1))⟩ : ShapleyValue)) =
      operators.enum.map (fun p => (⟨p.2, 0, 0⟩ : ShapleyValue)) := by
    apply List.map_congr_left
    intro p hp
    have hlt : p.1 < n := hops ▸ List.fst_lt_of_mem_enum hp
    rw [f64_to_decimal_nonfin (hsh p.1 hlt), hpct p.1 hlt, round_decimal_zero]
  rw [hmap]
  conv_rhs => rw [← List.enum_map_snd operators, List.map_map]
  rfl

theorem c8_panic_of_zero_size (operators : List String) (evalue : List F)
    (size : List ℕ) (n_ops k i : ℕ) (hk : k < operators.length)
    (hi : i ∈ with_op n_ops k) (hzero : size.getD i 0 = 0) :
    calculate_shapley_values operators evalue size n_ops = Outcome.panic := by
  have hguard : (List.range operators.length).any (fun k =>
      (with_op n_ops k).any (fun i => size.getD i 0 = 0)) = true := by
    rw [List.any_eq_true]
    refine ⟨k, List.mem_range.mpr hk, ?_⟩
    rw [List.any_eq_true]
    exact ⟨i, hi, decide_eq_true hzero⟩
  rw [calculate_shapley_values, if_pos hguard]

/-- C8, amended.  When every coalition in every operator's `with_op` set has
a positive recorded size — as on the exact path, where sizes are coalition
cardinalities — an all-`−∞` coalition-value vector (empty coalition 0) still
yields one `ShapleyValue` per operator with all values and percentages 0;
but whenever some `with_op` coalition has recorded size 0 — as the sampled
path produces for every unsampled coalition when all solves fail — the
aggregation panics on `factorials[size[i] - 1]` instead of returning
values. -/
theorem c8_all_neg_inf_zero_output :
    (∀ (n : ℕ) (operators : List String) (size : List ℕ) (u : ℚ),
      1 ≤ n → operators.length = n →
      (∀ k, k < n → ∀ i ∈ with_op n k, size.getD i 0 ≠ 0) →
      calculate_shapley_values operators
        (compute_expected_values
          ((List.range (2 ^ n)).map (fun j => if j = 0 then F.fin 0 else F.ninf))
          size u n)
        size n =
      Outcome.ok (operators.map (fun op => ⟨op, 0, 0⟩))) ∧
    (∀ (operators : List String) (evalue : List F) (size : List ℕ) (n_ops k i : ℕ),
      k < operators.length → i ∈ with_op n_ops k → size.getD i 0 = 0 →
      calculate_shapley_values operators evalue size n_ops = Outcome.panic) :=
  ⟨fun n operators size u hn hops hsz =>
      c8_zero_output_of_pos_sizes n operators size u hn hops hsz,
   fun operators evalue size n_ops k i hk hi hzero =>
      c8_panic_of_zero_size operators evalue size n_ops k i hk hi hzero⟩

set_option maxRecDepth 8000 in
/-- Witness for C8: a one-operator instance with positive `with_op` sizes
returns the all-zero output, and a ten-operator instance with an all-zero
size vector panics. -/
theorem c8_all_neg_inf_zero_output_witness :
    calculate_shapley_values ["X"]
      (compute_expected_values
        ((List.range (2 ^ 1)).map (fun j => if j = 0 then F.fin 0 else F.ninf))
        [0, 1] (49/50) 1)
      [0, 1] 1 = Outcome.ok [⟨"X", 0, 0⟩] ∧
    calculate_shapley_values opsTen [] (List.replicate (2 ^ 10) 0) 10 =
      Outcome.panic :=
  ⟨c8_all_neg_inf_zero_output.1 1 ["X"] [0, 1] (49/50) (by decide) (by decide)
     (by decide),
   c8_all_neg_inf_zero_output.2 opsTen [] (List.replicate (2 ^ 10) 0) 10 0 1
     (by decide) (by decide) (by decide)⟩

theorem foldl_id {α β : Type} (l : List β) (x : α) (f : α → β → α)
    (h : ∀ b ∈ l, f x b = x) : l.foldl f x = x := by
  induction l with
  | nil => rfl
  | cons b bs ih =>
      rw [List.foldl_cons, h b (List.mem_cons_self b bs)]
      exact ih (fun c hc => h c (List.mem_cons_of_mem b hc))

theorem getD_foldl_set_all {α β : Type} (d v : α) (key : β → ℕ) (val : β → α) :
    ∀ (ws : List β) (l : List α) (j : ℕ),
      (∀ w ∈ ws, val w = v) → l.getD j d = v →
      (ws.foldl (fun acc w => acc.set (key w) (val w)) l).getD j d = v := by
  intro ws
  induction ws with
  | nil => intro l j _ hbase; exact hbase
  | cons w ws ih =>
      intro l j hv hbase
      rw [List.foldl_cons]
      apply ih (l.set (key w) (val w)) j (fun x hx => hv x (List.mem_cons_of_mem w hx))
      by_cases hj : key w = j
      · by_cases hlt : key w < l.length
        · rw [hj] at hlt ⊢
          rw [List.getD_eq_getElem?_getD, List.getElem?_set_self hlt]
          exact hv w (List.mem_cons_self w ws)
        · rw [List.set_eq_of_length_le (Nat.le_of_not_lt hlt)]
          exact hbase
      · rw [List.getD_eq_getElem?_getD, List.getElem?_set_ne hj,
          ← List.getD_eq_getElem?_getD]
        exact hbase

theorem getD_foldl_set_ne {α β : Type} (d : α) (key : β → ℕ) (val : β → α) :
    ∀ (ws : List β) (l : List α) (j : ℕ),
      (∀ w ∈ ws, key w ≠ j) →
      (ws.foldl (fun acc w => acc.set (key w) (val w)) l).getD j d = l.getD j d := by
  intro ws
  induction ws with
  | nil => intro l j _; rfl
  | cons w ws ih =>
      intro l j hne
      rw [List.foldl_cons,
        ih (l.set (key w) (val w)) j (fun x hx => hne x (List.mem_cons_of_mem w hx)),
        List.getD_eq_getElem?_getD,
        List.getElem?_set_ne (hne w (List.mem_cons_self w ws)),
        ← List.getD_eq_getElem?_getD]

theorem solve_single_coalition_fail (oracle : LPOracle) (p : LPPrimitives)
    (hfail : ∀ rm cm, oracle p rm cm = none) (rm cm : List Bool) :
    solve_single_coalition oracle p rm cm = none := by
  rw [solve_single_coalition]
  split
  · rfl
  · exact hfail rm cm

theorem coalition_value_fail (oracle : LPOracle) (operators : List String)
    (p : LPPrimitives) (hfail : ∀ rm cm, oracle p rm cm = none) (idx : ℕ) :
    coalition_value oracle operators p idx = F.ninf := by
  rw [coalition_value, solve_single_coalition_fail oracle p hfail]

/-- With an always-failing solver, the sampled path leaves the recorded size
of every coalition it neither pre-computes nor samples at 0: every stored
value is `−∞` away from index 0, so the interpolation pass finds no known
values and writes nothing. -/
theorem sampled_all_fail_size (oracle : LPOracle) (rng : ℕ → ℕ → ℕ)
    (operators : List String) (p : LPPrimitives)
    (hfail : ∀ rm cm, oracle p rm cm = none)
    (j : ℕ) (hjlt : j < 2 ^ operators.length)
    (hjfull : j ≠ 2 ^ operators.length - 1)
    (hns : j ∉ sample_loop (rng (csize operators.length j)) 0
      (min (samples_per_size operators.length)
        ((List.range (2 ^ operators.length)).filter
          (fun idx => csize operators.length idx = csize operators.length j)).length)
      ((List.range (2 ^ operators.length)).filter
        (fun idx => csize operators.length idx = csize operators.length j))) :
    (solve_coalition_values_sampled oracle rng operators p).2.getD j 0 = 0 := by
  rw [solve_coalition_values_sampled]
  refine Eq.trans (congrArg (fun q : List F × List ℕ => q.2.getD j 0)
    (foldl_id _ _ _ ?hstep)) ?hmain
  case hstep =>
    intro k hk
    have hk1 : 1 ≤ k := (List.mem_range'_1.mp hk).1
    dsimp only
    rw [List.filterMap_eq_nil_iff.mpr ?hnone]
    · rfl
    case hnone =>
      intro idx hidx
      have hcs : csize operators.length idx = k :=
        of_decide_eq_true (List.mem_filter.mp hidx).2
      have hlt : idx < 2 ^ operators.length :=
        List.mem_range.mp (List.mem_filter.mp hidx).1
      have hne0 : idx ≠ 0 := by
        intro h0
        rw [h0, csize_zero] at hcs
        omega
      rw [getD_foldl_set_all F.nan F.ninf _ _ _ _ idx ?hvals ?hbase]
      · rfl
      case hvals =>
        intro r hr
        obtain ⟨k2, hk2, hr2⟩ := List.mem_flatMap.mp hr
        obtain ⟨idx2, hidx2, rfl⟩ := List.mem_map.mp hr2
        exact coalition_value_fail oracle operators p hfail idx2
      case hbase =>
        by_cases hfull : idx = 2 ^ operators.length - 1
        · subst hfull
          rw [List.getD_eq_getElem?_getD, List.getElem?_set_self (by
            simp only [List.length_set, List.length_replicate]
            have hN : 0 < 2 ^ operators.length := Nat.pos_pow_of_pos _ (by norm_num)
            omega)]
          rw [solve_single_coalition_fail oracle p hfail]
          rfl
        · rw [List.getD_eq_getElem?_getD,
            List.getElem?_set_ne (fun h => hfull h.symm),
            List.getElem?_set_ne (fun h => hne0 h.symm),
            List.getElem?_replicate_of_lt hlt]
          rfl
  case hmain =>
    dsimp only
    rw [getD_foldl_set_ne 0 _ _ _ _ j ?hne]
    · rw [List.getD_eq_getElem?_getD,
        List.getElem?_set_ne (fun h => hjfull h.symm),
        List.getElem?_replicate_of_lt hjlt]
      rfl
    case hne =>
      intro r hr
      obtain ⟨k2, hk2, hr2⟩ := List.mem_flatMap.mp hr
      obtain ⟨idx2, hidx2, rfl⟩ := List.mem_map.mp hr2
      intro heq
      have heq2 : idx2 = j := heq
      have hpool := sample_loop_subset _ _ _ _ idx2 hidx2
      have hcs : csize operators.length idx2 = k2 :=
        of_decide_eq_true (List.mem_filter.mp hpool).2
      rw [heq2] at hcs hidx2
      rw [← hcs] at hidx2
      exact hns hidx2

set_option maxRecDepth 8000 in
set_option maxHeartbeats 1000000 in
/-- C8, counterexample.  On the sampled path (ten operators) with every LP
solve failing, coalition 11 (operators {0, 1, 3}) is never sampled under the
modelled random stream, so its recorded size stays 0; the aggregation then
panics on `factorials[size[11] - 1]` while weighting operator 0's coalitions,
instead of returning all-zero Shapley values. -/
theorem c8_sampled_size_panic_counterexample :
    (solve_coalition_values oracleFail rng0 opsTen c2prims).2.getD 11 0 = 0 ∧
    11 ∈ with_op 10 0 ∧
    calculate_shapley_values opsTen
      ((solve_coalition_values oracleFail rng0 opsTen c2prims).1)
      ((solve_coalition_values oracleFail rng0 opsTen c2prims).2) 10 =
      Outcome.panic := by
  have hsz : (solve_coalition_values oracleFail rng0 opsTen c2prims).2.getD 11 0 = 0 := by
    rw [solve_coalition_values, if_pos (by decide : 10 ≤ opsTen.length)]
    exact sampled_all_fail_size oracleFail rng0 opsTen c2prims
      (fun rm cm => rfl) 11 (by decide) (by decide) (by decide)
  exact ⟨hsz, by decide,
    c8_panic_of_zero_size opsTen _ _ 10 0 11 (by decide) (by decide) hsz⟩

/-- Witness for C5 at a concrete finite vector. -/
theorem c5_uptime_one_identity_witness :
    compute_expected_values ([(3 : ℚ), 7].map F.fin) [0, 1] 1 1 =
      [(3 : ℚ), 7].map F.fin :=
  c5_uptime_one_identity 1 [0, 1] [3, 7] (by decide)

/-- The consolidated map produced from `c9priv`/`c1pub` with empty demand. -/
def c9badmap : List Link :=
  [⟨"AAA1", "BBB1", 10, 10, "0", "0", 1, 0, 0⟩,
   ⟨"BBB1", "AAA1", 10, 10, "0", "0", 1, 0, 0⟩,
   ⟨"AAA1", "BBB1", 10, 10, "OpX", "OpX", 1, 1, 0⟩,
   ⟨"BBB1", "AAA1", 10, 10, "OpX", "OpX", 1, 2, 0⟩,
   ⟨"AAA1", "BBB1", 105, 0, "0", "0", 1, 0, 0⟩,
   ⟨"BBB1", "AAA1", 105, 0, "0", "0", 1, 0, 0⟩]

/-- C9, counterexample.  `consolidate_map` accepts an input whose first
private link carries `operator1 = "0"` (operator names are not validated on
this path), and the resulting map interleaves: position 0 has operator "0"
while position 2 has operator "OpX", so links with non-"0" operators do not
form a contiguous prefix, and the first `n_private` positions are not the
private links. -/
theorem c9_prefix_counterexample :
    consolidate_map c9priv c1pub [] 5 = Outcome.ok c9badmap ∧
    (c9badmap.getD 0 default).operator1 = "0" ∧
    (c9badmap.getD 2 default).operator1 = "OpX" ∧ 2 < c9badmap.length ∧
    ("OpX" : String) ≠ "0" := by
  refine ⟨by decide, by decide, by decide, by decide, by decide⟩

theorem takeBytes_ascii (n : ℕ) : ∀ (cs : List Char), n ≤ cs.length →
    (∀ ch ∈ cs.take n, ch.utf8Size = 1) →
    takeBytes cs n = some (cs.take n) := by
  induction n with
  | zero => intro cs _ _; cases cs <;> rfl
  | succ m ih =>
      intro cs hlen hch
      cases cs with
      | nil => simp at hlen
      | cons a as =>
          have ha : a.utf8Size = 1 := hch a (by simp)
          simp only [takeBytes]
          rw [if_pos (by rw [ha]; omega), ha, Nat.add_sub_cancel]
          rw [ih as (by simp at hlen; omega)
            (fun x hx => hch x (List.mem_cons_of_mem a hx))]
          rfl

/-- C10.  City extraction `&switch[..3]` is partial: (a) on every label whose
first three characters are single-byte (ASCII) — in particular every ASCII
label of length at least 3 — the 3-byte slice succeeds; (b) the label "äö1"
passes the digit-naming check, yet byte index 3 falls inside its second
character, so the slice panics (`city3 = none`); and (c) `consolidate_map`
on an otherwise valid input whose public links contain that label panics
instead of returning a typed error. -/
theorem c10_city_extraction_partiality :
    (∀ s : String, 3 ≤ s.data.length → (∀ ch ∈ s.data.take 3, ch.utf8Size = 1) →
      city3 s = some (String.mk (s.data.take 3))) ∧
    (has_digit "äö1" = true ∧ city3 "äö1" = none) ∧
    consolidate_map c10priv c10pub [] 5 = Outcome.panic := by
  refine ⟨?_, ⟨by decide, by decide⟩, by decide⟩
  intro s hlen hch
  rw [city3, takeBytes_ascii 3 s.data hlen hch]
  rfl

/-- Witness for C10 part (a) on the ASCII label "AAA1". -/
theorem c10_city_extraction_partiality_witness :
    (3 ≤ "AAA1".data.length ∧ (∀ ch ∈ "AAA1".data.take 3, ch.utf8Size = 1)) ∧
    city3 "AAA1" = some (String.mk ("AAA1".data.take 3)) :=
  ⟨⟨by decide, by decide⟩,
   c10_city_extraction_partiality.1 "AAA1" (by decide) (by decide)⟩

theorem Outcome.bind_ok {α β : Type} (a : Outcome α) (f : α → Outcome β) (b : β)
    (h : Outcome.bind a f = Outcome.ok b) :
    ∃ x, a = Outcome.ok x ∧ f x = Outcome.ok b := by
  cases a with
  | ok x => exact ⟨x, rfl, h⟩
  | err e => exact Outcome.noConfusion h
  | panic => exact Outcome.noConfusion h

theorem fill_operator2_operator1 (l : Link) :
    (fill_operator2 l).operator1 = l.operator1 := by
  rw [fill_operator2]
  split <;> rfl

theorem assign_fresh_operator1 : ∀ (ls : List Link) (next : ℕ) (l : Link),
    l ∈ assign_fresh ls next → ∃ l0 ∈ ls, l.operator1 = l0.operator1 := by
  intro ls
  induction ls with
  | nil => intro next l h; rw [assign_fresh] at h; exact absurd h (List.not_mem_nil l)
  | cons a as ih =>
      intro next l h
      rw [assign_fresh] at h
      by_cases hc : a.shared = 0 ∧ a.operator1 ≠ "0"
      · rw [if_pos hc] at h
        rcases List.mem_cons.mp h with h | h
        · exact ⟨a, List.mem_cons_self a as, by rw [h]⟩
        · obtain ⟨l0, hl0, he⟩ := ih (next + 1) l h
          exact ⟨l0, List.mem_cons_of_mem a hl0, he⟩
      · rw [if_neg hc] at h
        rcases List.mem_cons.mp h with h | h
        · exact ⟨a, List.mem_cons_self a as, by rw [h]⟩
        · obtain ⟨l0, hl0, he⟩ := ih next l h
          exact ⟨l0, List.mem_cons_of_mem a hl0, he⟩

theorem compact_shared_ids_operator1 (links : List Link) (l : Link)
    (h : l ∈ compact_shared_ids links) :
    ∃ l0 ∈ links, l.operator1 = l0.operator1 := by
  rw [compact_shared_ids] at h
  split at h
  · exact assign_fresh_operator1 links _ l h
  · obtain ⟨l1, hl1, rfl⟩ := List.mem_map.mp h
    obtain ⟨l0, hl0, he⟩ := assign_fresh_operator1 links _ l1 hl1
    refine ⟨l0, hl0, ?_⟩
    by_cases hc : 0 < l1.shared
    · simp only [if_pos hc]
      exact he
    · simp only [if_neg hc]
      exact he

theorem duplicate_links_operator1 (ms : ℕ) (links : List Link) (l : Link)
    (h : l ∈ duplicate_links ms links) :
    ∃ l0 ∈ links, l.operator1 = l0.operator1 := by
  rw [duplicate_links] at h
  obtain ⟨l0, hl0, hm⟩ := List.mem_flatMap.mp h
  refine ⟨l0, hl0, ?_⟩
  rcases List.mem_cons.mp hm with h1 | h1
  · rw [h1]
  · rcases List.mem_cons.mp h1 with h2 | h2
    · rw [h2]
    · exact absurd h2 (List.not_mem_nil l)

theorem prepare_private_links_operator1 (priv : List Link) (l : Link)
    (h : l ∈ prepare_private_links priv) :
    ∃ l0 ∈ priv, l.operator1 = l0.operator1 := by
  rw [prepare_private_links] at h
  obtain ⟨l1, hl1, he1⟩ := compact_shared_ids_operator1 _ l h
  obtain ⟨l2, hl2, he2⟩ := duplicate_links_operator1 _ _ l1 hl1
  obtain ⟨l3, hl3, rfl⟩ := List.mem_map.mp hl2
  exact ⟨l3, hl3, by rw [he1, he2, fill_operator2_operator1]⟩

theorem filter_take_front (A rest : List Link)
    (hA : ∀ l ∈ A, l.operator1 ≠ "0") (hrest : ∀ l ∈ rest, l.operator1 = "0") :
    ((A ++ rest).filter (fun l => l.operator1 ≠ "0")).length = A.length ∧
    (A ++ rest).take A.length = A := by
  have hfA : A.filter (fun l => l.operator1 ≠ "0") = A :=
    List.filter_eq_self.mpr (fun a ha => decide_eq_true (hA a ha))
  have hfR : rest.filter (fun l => l.operator1 ≠ "0") = [] :=
    List.filter_eq_nil_iff.mpr (fun a ha => by rw [hrest a ha]; decide)
  constructor
  · rw [List.filter_append, hfA, hfR, List.append_nil]
  · exact List.take_left A rest

/-- C9, amended.  When every input private link has a primary operator other
than "0" (as network-shapley guarantees on the validated path), every link
map `consolidate_map` returns keeps the links with operator1 ≠ "0" as a
contiguous leading block: the map is `prepare_private_links` of the input
followed by links all tagged "0", the count `n_private` of non-"0" links
equals the length of that block, and `take n_private` recovers exactly the
prepared private links. -/
theorem c9_private_prefix_amended (priv pub : List Link) (dem : List Demand)
    (q : ℚ) (m : List Link)
    (hpriv : ∀ l ∈ priv, l.operator1 ≠ "0")
    (hok : consolidate_map priv pub dem q = Outcome.ok m) :
    ∃ rest, m = prepare_private_links priv ++ rest ∧
      (∀ l ∈ rest, l.operator1 = "0") ∧
      (∀ l ∈ prepare_private_links priv, l.operator1 ≠ "0") ∧
      (m.filter (fun l => l.operator1 ≠ "0")).length =
        (prepare_private_links priv).length ∧
      m.take ((m.filter (fun l => l.operator1 ≠ "0")).length) =
        prepare_private_links priv := by
  have hAne : ∀ l ∈ prepare_private_links priv, l.operator1 ≠ "0" := by
    intro l hl
    obtain ⟨l0, hl0, he⟩ := prepare_private_links_operator1 priv l hl
    rw [he]
    exact hpriv l0 hl0
  rw [consolidate_map] at hok
  obtain ⟨u1, h1, hok⟩ := Outcome.bind_ok _ _ _ hok
  obtain ⟨u2, h2, hok⟩ := Outcome.bind_ok _ _ _ hok
  obtain ⟨u3, h3, hok⟩ := Outcome.bind_ok _ _ _ hok
  obtain ⟨u4, h4, hok⟩ := Outcome.bind_ok _ _ _ hok
  obtain ⟨u5, h5, hok⟩ := Outcome.bind_ok _ _ _ hok
  obtain ⟨u6, h6, hok⟩ := Outcome.bind_ok _ _ _ hok
  obtain ⟨u7, h7, hok⟩ := Outcome.bind_ok _ _ _ hok
  obtain ⟨helper, h8, hok⟩ := Outcome.bind_ok _ _ _ hok
  have hm : merge_link_components (prepare_private_links priv)
      (prepare_public_links pub) helper q = m := Outcome.ok.inj hok
  have hpack : ∃ rest, merge_link_components (prepare_private_links priv)
      (prepare_public_links pub) helper q = prepare_private_links priv ++ rest ∧
      ∀ l ∈ rest, l.operator1 = "0" := by
    refine ⟨_, by rw [merge_link_components, List.append_assoc], ?_⟩
    intro l hl
    rcases List.mem_append.mp hl with h | h <;>
      obtain ⟨l0, hm0, rfl⟩ := List.mem_map.mp h <;> rfl
  obtain ⟨rest, hsplit0, hrest⟩ := hpack
  have hsplit : m = prepare_private_links priv ++ rest := by rw [← hm, hsplit0]
  have hft := filter_take_front (prepare_private_links priv) rest hAne hrest
  refine ⟨rest, hsplit, hrest, hAne, ?_, ?_⟩
  · rw [hsplit]
    exact hft.1
  · rw [hsplit, hft.1]
    exact hft.2

/-- The consolidated map of a valid one-private-link input. -/
def c9goodmap : List Link :=
  [⟨"AAA1", "BBB1", 10, 10, "OpX", "OpX", 1, 1, 0⟩,
   ⟨"BBB1", "AAA1", 10, 10, "OpX", "OpX", 1, 2, 0⟩,
   ⟨"AAA1", "BBB1", 105, 0, "0", "0", 1, 0, 0⟩,
   ⟨"BBB1", "AAA1", 105, 0, "0", "0", 1, 0, 0⟩]

/-- Witness for the amended C9 on a one-link private input. -/
theorem c9_private_prefix_amended_witness :
    ∃ rest, c9goodmap = prepare_private_links c10priv ++ rest ∧
      (∀ l ∈ rest, l.operator1 = "0") ∧
      (∀ l ∈ prepare_private_links c10priv, l.operator1 ≠ "0") ∧
      (c9goodmap.filter (fun l => l.operator1 ≠ "0")).length =
        (prepare_private_links c10priv).length ∧
      c9goodmap.take ((c9goodmap.filter (fun l => l.operator1 ≠ "0")).length) =
        prepare_private_links c10priv :=
  c9_private_prefix_amended c10priv [mkPub "AAA1" "BBB1" 100] [] 5 c9goodmap
    (by decide) (by decide)

theorem fill_operator2_shared (l : Link) : (fill_operator2 l).shared = l.shared := by
  rw [fill_operator2]
  split <;> rfl

theorem fwd_copy_eq (l : Link) (s : ℕ) :
    ({ fill_operator2 l with
        bandwidth := (fill_operator2 l).bandwidth * (fill_operator2 l).uptime
        link_type := 0
        shared := s } : Link) =
    { l with
        operator2 := (fill_operator2 l).operator2
        bandwidth := l.bandwidth * l.uptime
        link_type := 0
        shared := s } := by
  by_cases hc : l.operator2 = "0" ∨ l.operator2 = ""
  · simp only [fill_operator2, if_pos hc]
  · simp only [fill_operator2, if_neg hc]

theorem rev_copy_eq (l : Link) (s : ℕ) :
    ({ fill_operator2 l with
        start := (fill_operator2 l).«end»
        «end» := (fill_operator2 l).start
        bandwidth := (fill_operator2 l).bandwidth * (fill_operator2 l).uptime
        link_type := 0
        shared := s } : Link) =
    { l with
        start := l.«end»
        «end» := l.start
        operator2 := (fill_operator2 l).operator2
        bandwidth := l.bandwidth * l.uptime
        link_type := 0
        shared := s } := by
  by_cases hc : l.operator2 = "0" ∨ l.operator2 = ""
  · simp only [fill_operator2, if_pos hc]
  · simp only [fill_operator2, if_neg hc]

theorem max_shared_of_map_fill (links : List Link) :
    max_shared_of (links.map fill_operator2) = max_shared_of links := by
  rw [max_shared_of, max_shared_of, List.foldl_map]
  simp only [fill_operator2_shared]

theorem duplicate_links_cons (ms : ℕ) (a : Link) (as : List Link) :
    duplicate_links ms (a :: as) =
      { a with
          bandwidth := a.bandwidth * a.uptime
          link_type := 0 } ::
      { a with
          start := a.«end»
          «end» := a.start
          bandwidth := a.bandwidth * a.uptime
          link_type := 0
          shared := if 0 < a.shared then a.shared + ms else a.shared } ::
      duplicate_links ms as := rfl

theorem duplicate_links_length (ms : ℕ) (ls : List Link) :
    (duplicate_links ms ls).length = 2 * ls.length := by
  induction ls with
  | nil => rfl
  | cons a as ih =>
      rw [duplicate_links_cons, List.length_cons, List.length_cons, ih, List.length_cons]
      omega

theorem duplicate_links_getD (ms : ℕ) : ∀ (ls : List Link) (i : ℕ), i < ls.length →
    (duplicate_links ms ls).getD (2 * i) default =
      { ls.getD i default with
          bandwidth := (ls.getD i default).bandwidth * (ls.getD i default).uptime
          link_type := 0 } ∧
    (duplicate_links ms ls).getD (2 * i + 1) default =
      { ls.getD i default with
          start := (ls.getD i default).«end»
          «end» := (ls.getD i default).start
          bandwidth := (ls.getD i default).bandwidth * (ls.getD i default).uptime
          link_type := 0
          shared := if 0 < (ls.getD i default).shared then
              (ls.getD i default).shared + ms
            else (ls.getD i default).shared } := by
  intro ls
  induction ls with
  | nil => intro i hi; exact absurd hi (by simp)
  | cons a as ih =>
      intro i hi
      rw [duplicate_links_cons]
      cases i with
      | zero => exact ⟨rfl, rfl⟩
      | succ j =>
          have hj : j < as.length := by
            rw [List.length_cons] at hi
            omega
          constructor
          · rw [show 2 * (j + 1) = 2 * j + 1 + 1 from by omega]
            simp only [List.getD_cons_succ]
            exact (ih j hj).1
          · rw [show 2 * (j + 1) + 1 = 2 * j + 1 + 1 + 1 from by omega]
            simp only [List.getD_cons_succ]
            exact (ih j hj).2

theorem assign_fresh_length : ∀ (ls : List Link) (next : ℕ),
    (assign_fresh ls next).length = ls.length := by
  intro ls
  induction ls with
  | nil => intro next; rfl
  | cons a as ih =>
      intro next
      rw [assign_fresh]
      by_cases hc : a.shared = 0 ∧ a.operator1 ≠ "0"
      · rw [if_pos hc, List.length_cons, List.length_cons, ih]
      · rw [if_neg hc, List.length_cons, List.length_cons, ih]

theorem assign_fresh_getD : ∀ (ls : List Link) (next i : ℕ), i < ls.length →
    ∃ s, (assign_fresh ls next).getD i default =
      { ls.getD i default with shared := s } := by
  intro ls
  induction ls with
  | nil => intro next i hi; exact absurd hi (by simp)
  | cons a as ih =>
      intro next i hi
      rw [assign_fresh]
      by_cases hc : a.shared = 0 ∧ a.operator1 ≠ "0"
      · rw [if_pos hc]
        cases i with
        | zero => exact ⟨next, rfl⟩
        | succ j =>
            have hj : j < as.length := by
              rw [List.length_cons] at hi
              omega
            simp only [List.getD_cons_succ]
            exact ih (next + 1) j hj
      · rw [if_neg hc]
        cases i with
        | zero => exact ⟨a.shared, rfl⟩
        | succ j =>
            have hj : j < as.length := by
              rw [List.length_cons] at hi
              omega
            simp only [List.getD_cons_succ]
            exact ih next j hj

theorem assign_fresh_getD_pos : ∀ (ls : List Link) (next i : ℕ), i < ls.length →
    0 < (ls.getD i default).shared →
    (assign_fresh ls next).getD i default = ls.getD i default := by
  intro ls
  induction ls with
  | nil => intro next i hi _; exact absurd hi (by simp)
  | cons a as ih =>
      intro next i hi h0
      rw [assign_fresh]
      by_cases hc : a.shared = 0 ∧ a.operator1 ≠ "0"
      · rw [if_pos hc]
        cases i with
        | zero =>
            simp only [List.getD_cons_zero] at h0
            omega
        | succ j =>
            have hj : j < as.length := by
              rw [List.length_cons] at hi
              omega
            simp only [List.getD_cons_succ] at h0 ⊢
            exact ih (next + 1) j hj h0
      · rw [if_neg hc]
        cases i with
        | zero => rfl
        | succ j =>
            have hj : j < as.length := by
              rw [List.length_cons] at hi
              omega
            simp only [List.getD_cons_succ] at h0 ⊢
            exact ih next j hj h0

theorem getD_map_link (f : Link → Link) (ls : List Link) (i : ℕ) (hi : i < ls.length) :
    (ls.map f).getD i default = f (ls.getD i default) := by
  rw [List.getD_eq_getElem?_getD, List.getElem?_map, List.getElem?_eq_getElem hi,
    List.getD_eq_getElem?_getD, List.getElem?_eq_getElem hi]
  rfl

theorem compact_shared_ids_getD (ls : List Link) (i : ℕ) (hi : i < ls.length) :
    ∃ s, (compact_shared_ids ls).getD i default =
      { ls.getD i default with shared := s } := by
  obtain ⟨s0, hs0⟩ := assign_fresh_getD ls (max_shared_of ls + 1) i hi
  have hiA : i < (assign_fresh ls (max_shared_of ls + 1)).length := by
    rw [assign_fresh_length]
    exact hi
  rw [compact_shared_ids]
  split
  · exact ⟨s0, hs0⟩
  · rw [getD_map_link _ _ i hiA, hs0]
    dsimp only
    split
    · exact ⟨_, rfl⟩
    · exact ⟨s0, rfl⟩

theorem indexOf_mono_sorted (S : List ℕ) (hS : List.Pairwise (· < ·) S)
    (a b : ℕ) (ha : a ∈ S) (hb : b ∈ S) (hab : a < b) :
    S.indexOf a < S.indexOf b := by
  have hia : S.indexOf a < S.length := List.indexOf_lt_length.mpr ha
  have hib : S.indexOf b < S.length := List.indexOf_lt_length.mpr hb
  have hga : S[S.indexOf a] = a := List.getElem_indexOf hia
  have hgb : S[S.indexOf b] = b := List.getElem_indexOf hib
  rcases Nat.lt_trichotomy (S.indexOf a) (S.indexOf b) with h | h | h
  · exact h
  · have h1 : S[S.indexOf a]? = some a := by
      rw [List.getElem?_eq_getElem hia, hga]
    have h2 : S[S.indexOf b]? = some b := by
      rw [List.getElem?_eq_getElem hib, hgb]
    rw [h, h2] at h1
    have hba := Option.some.inj h1
    omega
  · have hba := List.pairwise_iff_getElem.mp hS _ _ hib hia h
    rw [hga, hgb] at hba
    omega

/-- C6.  `prepare_private_links` on `m` links returns `2m` links: positions
`2i` and `2i+1` are the forward and reverse copies of input link `i` (filled
secondary operator, bandwidth derated by uptime, `link_type` 0, endpoints
swapped on the reverse), identical to the input in every other field except
the shared id; at the duplication stage the forward copy keeps the input
shared id and the reverse copy of a link with positive shared id `s` gets
`s + max_shared`, with `max_shared` the maximum shared id over the inputs;
and compaction renumbers the positive shared ids to exactly `{1, …, K}`,
preserving the relative order of the pre-compaction ids. -/
theorem c6_prepare_private_links_spec (links : List Link) :
    (prepare_private_links links).length = 2 * links.length ∧
    (∀ i, i < links.length →
      ∃ s s',
        (prepare_private_links links).getD (2 * i) default =
          { links.getD i default with
              operator2 := (fill_operator2 (links.getD i default)).operator2
              bandwidth := (links.getD i default).bandwidth * (links.getD i default).uptime
              link_type := 0
              shared := s } ∧
        (prepare_private_links links).getD (2 * i + 1) default =
          { links.getD i default with
              start := (links.getD i default).«end»
              «end» := (links.getD i default).start
              operator2 := (fill_operator2 (links.getD i default)).operator2
              bandwidth := (links.getD i default).bandwidth * (links.getD i default).uptime
              link_type := 0
              shared := s' }) ∧
    max_shared_of (links.map fill_operator2) = max_shared_of links ∧
    (∀ i, i < links.length →
      ((duplicate_links (max_shared_of (links.map fill_operator2))
          (links.map fill_operator2)).getD (2 * i) default).shared =
        (links.getD i default).shared ∧
      ((duplicate_links (max_shared_of (links.map fill_operator2))
          (links.map fill_operator2)).getD (2 * i + 1) default).shared =
        (if 0 < (links.getD i default).shared then
          (links.getD i default).shared + max_shared_of links
        else (links.getD i default).shared)) ∧
    (∃ K, sortedDedupNat (((prepare_private_links links).map (fun l => l.shared)).filter
        (fun s => 0 < s)) = List.range' 1 K) ∧
    (∀ i j, i < 2 * links.length → j < 2 * links.length →
      0 < ((duplicate_links (max_shared_of (links.map fill_operator2))
          (links.map fill_operator2)).getD i default).shared →
      ((duplicate_links (max_shared_of (links.map fill_operator2))
          (links.map fill_operator2)).getD i default).shared <
        ((duplicate_links (max_shared_of (links.map fill_operator2))
          (links.map fill_operator2)).getD j default).shared →
      ((prepare_private_links links).getD i default).shared <
        ((prepare_private_links links).getD j default).shared) := by
  have hflen : (links.map fill_operator2).length = links.length :=
    List.length_map links fill_operator2
  have hDlen : (duplicate_links (max_shared_of (links.map fill_operator2))
      (links.map fill_operator2)).length = 2 * links.length := by
    rw [duplicate_links_length, hflen]
  refine ⟨?_, ?_, max_shared_of_map_fill links, ?_, ?_, ?_⟩
  · rw [prepare_private_links, compact_shared_ids]
    split
    · rw [assign_fresh_length, hDlen]
    · rw [List.length_map, assign_fresh_length, hDlen]
  · intro i hi
    have hfi : i < (links.map fill_operator2).length := by
      rw [hflen]
      exact hi
    have h2i : 2 * i < (duplicate_links (max_shared_of (links.map fill_operator2))
        (links.map fill_operator2)).length := by
      rw [hDlen]
      omega
    have h2i1 : 2 * i + 1 < (duplicate_links (max_shared_of (links.map fill_operator2))
        (links.map fill_operator2)).length := by
      rw [hDlen]
      omega
    have hdup := duplicate_links_getD (max_shared_of (links.map fill_operator2))
      (links.map fill_operator2) i hfi
    obtain ⟨s, hs⟩ := compact_shared_ids_getD _ _ h2i
    obtain ⟨s', hs'⟩ := compact_shared_ids_getD _ _ h2i1
    rw [hdup.1, getD_map_link fill_operator2 links i hi] at hs
    rw [hdup.2, getD_map_link fill_operator2 links i hi] at hs'
    rw [prepare_private_links]
    exact ⟨s, s', hs.trans (fwd_copy_eq _ s), hs'.trans (rev_copy_eq _ s')⟩
  · intro i hi
    have hfi : i < (links.map fill_operator2).length := by
      rw [hflen]
      exact hi
    have hdup := duplicate_links_getD (max_shared_of (links.map fill_operator2))
      (links.map fill_operator2) i hfi
    rw [getD_map_link fill_operator2 links i hi] at hdup
    constructor
    · rw [hdup.1]
      simp only [fill_operator2_shared]
    · rw [hdup.2]
      simp only [fill_operator2_shared, max_shared_of_map_fill]
  · rw [prepare_private_links, compact_shared_ids]
    set D := duplicate_links (max_shared_of (links.map fill_operator2))
      (links.map fill_operator2) with hDdef
    set A := assign_fresh D (max_shared_of D + 1) with hAdef
    set S := sortedDedupNat ((A.map (fun l => l.shared)).filter (fun s => 0 < s))
      with hSdef
    refine ⟨S.length, ?_⟩
    split
    next hS =>
      rw [← hSdef, List.isEmpty_iff.mp hS]
      rfl
    next hS =>
      apply sorted_nodup_ext _ _ (pairwise_sortedDedupNat _) (List.pairwise_lt_range' 1 _)
      intro x
      rw [mem_sortedDedupNat, List.mem_range'_1, List.mem_filter]
      constructor
      · rintro ⟨hmem, hposx⟩
        obtain ⟨y, hy, hyx⟩ := List.mem_map.mp hmem
        obtain ⟨l, hlA, rfl⟩ := List.mem_map.mp hy
        replace hposx := of_decide_eq_true hposx
        by_cases hls : 0 < l.shared
        · simp only [if_pos hls] at hyx
          have hmemS : l.shared ∈ S := by
            rw [hSdef, mem_sortedDedupNat]
            exact List.mem_filter.mpr
              ⟨List.mem_map.mpr ⟨l, hlA, rfl⟩, decide_eq_true hls⟩
          have hidx := List.indexOf_lt_length.mpr hmemS
          omega
        · simp only [if_neg hls] at hyx
          omega
      · rintro ⟨hx1, hx2⟩
        have hxK : x - 1 < S.length := by omega
        have hmemS : S[x - 1] ∈ S := List.getElem_mem hxK
        have hmem2 : S[x - 1] ∈ (A.map (fun l => l.shared)).filter (fun s => 0 < s) := by
          rw [← mem_sortedDedupNat, ← hSdef]
          exact hmemS
        obtain ⟨l, hlA, hls⟩ := List.mem_map.mp (List.mem_filter.mp hmem2).1
        have hpos : 0 < l.shared := by
          have h0 := of_decide_eq_true (List.mem_filter.mp hmem2).2
          omega
        refine ⟨List.mem_map.mpr ⟨_, List.mem_map.mpr ⟨l, hlA, rfl⟩, ?_⟩,
          decide_eq_true (show (0 : ℕ) < x by omega)⟩
        simp only [if_pos hpos]
        rw [hls]
        have hnd : S.Nodup := by
          rw [hSdef]
          exact (pairwise_sortedDedupNat _).imp (fun h => Nat.ne_of_lt h)
        rw [List.indexOf_getElem hnd (x - 1) hxK]
        omega
  · intro i j hi hj hposi hij
    have hposj : 0 < ((duplicate_links (max_shared_of (links.map fill_operator2))
        (links.map fill_operator2)).getD j default).shared := by omega
    have hiD : i < (duplicate_links (max_shared_of (links.map fill_operator2))
        (links.map fill_operator2)).length := by
      rw [hDlen]
      omega
    have hjD : j < (duplicate_links (max_shared_of (links.map fill_operator2))
        (links.map fill_operator2)).length := by
      rw [hDlen]
      omega
    have hApi := assign_fresh_getD_pos (duplicate_links
        (max_shared_of (links.map fill_operator2)) (links.map fill_operator2))
      (max_shared_of (duplicate_links (max_shared_of (links.map fill_operator2))
        (links.map fill_operator2)) + 1) i hiD hposi
    have hApj := assign_fresh_getD_pos (duplicate_links
        (max_shared_of (links.map fill_operator2)) (links.map fill_operator2))
      (max_shared_of (duplicate_links (max_shared_of (links.map fill_operator2))
        (links.map fill_operator2)) + 1) j hjD hposj
    rw [prepare_private_links, compact_shared_ids]
    set D := duplicate_links (max_shared_of (links.map fill_operator2))
      (links.map fill_operator2) with hDdef
    set A := assign_fresh D (max_shared_of D + 1) with hAdef
    set S := sortedDedupNat ((A.map (fun l => l.shared)).filter (fun s => 0 < s))
      with hSdef
    have hiA : i < A.length := by
      rw [hAdef, assign_fresh_length, hDlen]
      omega
    have hjA : j < A.length := by
      rw [hAdef, assign_fresh_length, hDlen]
      omega
    have hAi_eq : A.getD i default = A[i] := by
      rw [List.getD_eq_getElem?_getD, List.getElem?_eq_getElem hiA]
      rfl
    have hAj_eq : A.getD j default = A[j] := by
      rw [List.getD_eq_getElem?_getD, List.getElem?_eq_getElem hjA]
      rfl
    have hmemA_i : A.getD i default ∈ A := by
      rw [hAi_eq]
      exact List.getElem_mem hiA
    have hmemA_j : A.getD j default ∈ A := by
      rw [hAj_eq]
      exact List.getElem_mem hjA
    have hSmem_i : (A.getD i default).shared ∈ S := by
      rw [hSdef, mem_sortedDedupNat]
      exact List.mem_filter.mpr ⟨List.mem_map.mpr ⟨_, hmemA_i, rfl⟩,
        decide_eq_true (by rw [hApi]; exact hposi)⟩
    have hSmem_j : (A.getD j default).shared ∈ S := by
      rw [hSdef, mem_sortedDedupNat]
      exact List.mem_filter.mpr ⟨List.mem_map.mpr ⟨_, hmemA_j, rfl⟩,
        decide_eq_true (by rw [hApj]; exact hposj)⟩
    rw [hApi] at hSmem_i
    rw [hApj] at hSmem_j
    have hfalse : ¬(S.isEmpty = true) := by
      intro hh
      rw [List.isEmpty_iff] at hh
      rw [hh] at hSmem_i
      exact absurd hSmem_i (List.not_mem_nil _)
    rw [if_neg hfalse]
    rw [getD_map_link _ _ i hiA, getD_map_link _ _ j hjA]
    rw [hApi, hApj]
    have hSsorted : List.Pairwise (· < ·) S := by
      rw [hSdef]
      exact pairwise_sortedDedupNat _
    have hmono := indexOf_mono_sorted S hSsorted _ _ hSmem_i hSmem_j hij
    simp only [if_pos hposi, if_pos hposj]
    omega

/-- Witness for C6 on two links with shared ids 7 and 2. -/
theorem c6_prepare_private_links_spec_witness :
    (prepare_private_links c6links).length = 2 * c6links.length ∧
    (∃ s s',
      (prepare_private_links c6links).getD 0 default =
        { c6links.getD 0 default with
            operator2 := (fill_operator2 (c6links.getD 0 default)).operator2
            bandwidth := (c6links.getD 0 default).bandwidth * (c6links.getD 0 default).uptime
            link_type := 0
            shared := s } ∧
      (prepare_private_links c6links).getD 1 default =
        { c6links.getD 0 default with
            start := (c6links.getD 0 default).«end»
            «end» := (c6links.getD 0 default).start
            operator2 := (fill_operator2 (c6links.getD 0 default)).operator2
            bandwidth := (c6links.getD 0 default).bandwidth * (c6links.getD 0 default).uptime
            link_type := 0
            shared := s' }) ∧
    max_shared_of (c6links.map fill_operator2) = max_shared_of c6links ∧
    (((duplicate_links (max_shared_of (c6links.map fill_operator2))
        (c6links.map fill_operator2)).getD 2 default).shared =
      (c6links.getD 1 default).shared ∧
     ((duplicate_links (max_shared_of (c6links.map fill_operator2))
        (c6links.map fill_operator2)).getD 3 default).shared =
      (if 0 < (c6links.getD 1 default).shared then
        (c6links.getD 1 default).shared + max_shared_of c6links
      else (c6links.getD 1 default).shared)) ∧
    (∃ K, sortedDedupNat (((prepare_private_links c6links).map (fun l => l.shared)).filter
        (fun s => 0 < s)) = List.range' 1 K) ∧
    ((prepare_private_links c6links).getD 2 default).shared <
      ((prepare_private_links c6links).getD 0 default).shared :=
  ⟨(c6_prepare_private_links_spec c6links).1,
   (c6_prepare_private_links_spec c6links).2.1 0 (by decide),
   (c6_prepare_private_links_spec c6links).2.2.1,
   (c6_prepare_private_links_spec c6links).2.2.2.1 1 (by decide),
   (c6_prepare_private_links_spec c6links).2.2.2.2.1,
   (c6_prepare_private_links_spec c6links).2.2.2.2.2 2 0 (by decide) (by decide)
     (by decide) (by decide)⟩

/-- C1, amended.  When every accumulated Shapley value is a finite double,
the percent values before the 4-decimal rounding sum to exactly 1 whenever
some Shapley value is strictly positive, and are all 0 otherwise; only the
reported, 4-dp-rounded percents can fail to sum to 1. -/
theorem c1_unrounded_percent_sum (evalue : List F) (size : List ℕ) (n_ops : ℕ)
    (hfin : ∀ k, k < n_ops → (shapleyF evalue size n_ops k).isFinite = true) :
    ((∃ k, k < n_ops ∧ F.gt (shapleyF evalue size n_ops k) (F.fin 0) = true) →
      ((List.range n_ops).map (fun k =>
        f64_to_decimal (percentF evalue size n_ops k))).sum = 1) ∧
    ((∀ k, k < n_ops → F.gt (shapleyF evalue size n_ops k) (F.fin 0) = false) →
      ∀ k, k < n_ops → f64_to_decimal (percentF evalue size n_ops k) = 0) := by
  have hv : ∀ k, k < n_ops →
      shapleyF evalue size n_ops k =
        F.fin (f64_to_decimal (shapleyF evalue size n_ops k)) := by
    intro k hk
    have hf := hfin k hk
    cases h : shapleyF evalue size n_ops k with
    | fin q => rfl
    | pinf => rw [h] at hf; exact absurd hf (by decide)
    | ninf => rw [h] at hf; exact absurd hf (by decide)
    | nan => rw [h] at hf; exact absurd hf (by decide)
  have hclip : ∀ k, k < n_ops → clipF evalue size n_ops k =
      F.fin (max (f64_to_decimal (shapleyF evalue size n_ops k)) 0) := by
    intro k hk
    rw [clipF]
    conv_lhs => rw [hv k hk]
    rfl
  have htot : totalClipF evalue size n_ops =
      F.fin (∑ k ∈ Finset.range n_ops,
        max (f64_to_decimal (shapleyF evalue size n_ops k)) 0) := by
    rw [totalClipF,
      List.map_congr_left (fun k hk => hclip k (List.mem_range.mp hk)),
      Fsum_map_fin, list_range_map_sum]
  constructor
  · intro hex
    obtain ⟨k0, hk0, hgt0⟩ := hex
    rw [hv k0 hk0] at hgt0
    simp only [F.gt] at hgt0
    have hpos0 : 0 < f64_to_decimal (shapleyF evalue size n_ops k0) :=
      of_decide_eq_true hgt0
    have hT : 0 < ∑ k ∈ Finset.range n_ops,
        max (f64_to_decimal (shapleyF evalue size n_ops k)) 0 := by
      have hle : max (f64_to_decimal (shapleyF evalue size n_ops k0)) 0 ≤
          ∑ k ∈ Finset.range n_ops,
            max (f64_to_decimal (shapleyF evalue size n_ops k)) 0 :=
        Finset.single_le_sum
          (fun i _ => le_max_right (f64_to_decimal (shapleyF evalue size n_ops i)) 0)
          (Finset.mem_range.mpr hk0)
      exact lt_of_lt_of_le (lt_of_lt_of_le hpos0 (le_max_left _ _)) hle
    have hgtT : F.gt (totalClipF evalue size n_ops) (F.fin 0) = true := by
      rw [htot]
      simp only [F.gt]
      exact decide_eq_true hT
    have hper : ∀ k, k < n_ops → percentF evalue size n_ops k =
        F.fin (max (f64_to_decimal (shapleyF evalue size n_ops k)) 0 /
          ∑ j ∈ Finset.range n_ops,
            max (f64_to_decimal (shapleyF evalue size n_ops j)) 0) := by
      intro k hk
      rw [percentF, if_pos hgtT, htot, hclip k hk]
      simp only [F.div]
      rw [if_neg (ne_of_gt hT)]
    have hmapeq : (List.range n_ops).map
        (fun k => f64_to_decimal (percentF evalue size n_ops k)) =
        (List.range n_ops).map
        (fun k => max (f64_to_decimal (shapleyF evalue size n_ops k)) 0 /
          ∑ j ∈ Finset.range n_ops,
            max (f64_to_decimal (shapleyF evalue size n_ops j)) 0) :=
      List.map_congr_left (fun k hk => by
        rw [hper k (List.mem_range.mp hk)]
        rfl)
    rw [hmapeq, list_range_map_sum, ← Finset.sum_div, div_self (ne_of_gt hT)]
  · intro hneg k hk
    have hvle : ∀ j, j < n_ops →
        max (f64_to_decimal (shapleyF evalue size n_ops j)) 0 = 0 := by
      intro j hj
      have hgf := hneg j hj
      rw [hv j hj] at hgf
      simp only [F.gt] at hgf
      exact max_eq_right (le_of_not_lt (of_decide_eq_false hgf))
    have hT0 : ∑ j ∈ Finset.range n_ops,
        max (f64_to_decimal (shapleyF evalue size n_ops j)) 0 = 0 :=
      Finset.sum_eq_zero (fun j hj => hvle j (Finset.mem_range.mp hj))
    have hgtF : ¬(F.gt (totalClipF evalue size n_ops) (F.fin 0) = true) := by
      rw [htot, hT0]
      simp only [F.gt]
      rw [decide_eq_false (lt_irrefl (0 : ℚ))]
      exact Bool.false_ne_true
    rw [percentF, if_neg hgtF, hclip k hk, hvle k hk]
    rfl

/-- Witness for the amended C1: one operator with Shapley value 1 (percent
sum 1), and one with Shapley value -1 (all percents 0). -/
theorem c1_unrounded_percent_sum_witness :
    ((List.range 1).map (fun k =>
      f64_to_decimal (percentF [F.fin 0, F.fin 1] [0, 1] 1 k))).sum = 1 ∧
    (∀ k, k < 1 → f64_to_decimal (percentF [F.fin 0, F.fin (-1)] [0, 1] 1 k) = 0) :=
  ⟨(c1_unrounded_percent_sum [F.fin 0, F.fin 1] [0, 1] 1 (by decide)).1
      ⟨0, by decide, by decide⟩,
   (c1_unrounded_percent_sum [F.fin 0, F.fin (-1)] [0, 1] 1 (by decide)).2
      (by decide)⟩

end NetworkShapley
